import Mathlib

/-!
# Verification of the gcl Google-case-law parser

Shallow embedding, in Lean 4, of the text-processing core of the
`stacks-ai/gcl` repository (files `gcl/utils.py` and `tools/gcl/gcl.py`),
together with theorems settling the specification claims about it.

Conventions used throughout:

* Python strings are modelled as Lean `String` / `List Char`;
  Python `int` values arising here are all non-negative character
  offsets or claim numbers and are modelled as `Nat`.
* Python functions that can raise (`int(...)` on a non-numeral,
  `min([])`, `reduce` over an empty list) are modelled with `Option`,
  `none` standing for the raising execution.
* The regular-expression fragments the claims depend on are modelled by
  a small executable matching engine (`RE`, `matchRE`, `subAll`) whose
  alternation order, greediness and leftmost-match scanning reproduce
  Python's `re` behaviour for the pattern shapes that actually occur
  (character classes, literals, sequencing, ordered alternation,
  optional parts, and one-or-more repetitions of a character class).
-/

namespace Gcl

/-! ## `utils.closest_value`

Embedding of

```python
def closest_value(list_, value, none_allowed=True):
    if isinstance(value, str):
        value = int(value)
    for _index, i in enumerate(list_):
        if value > i:
            list_[_index] = value - i
    if m := min(list_):
        if none_allowed or m <= value:
            return list_.index(m)
        else:
            return
```

The loop replaces every element `i < value` by the difference
`value - i`; elements `≥ value` are left in place.  `min` of the empty
list raises in Python, modelled as `none`.  The walrus test makes the
function return `None` when the minimum is `0`.  `list.index` returns
the first index of the minimum. -/

/-- Minimum of a nonempty list of naturals, as Python's `min`. -/
def minNat : List Nat → Nat
  | [] => 0
  | x :: xs => xs.foldl Nat.min x

/-- The in-place transformation performed by `closest_value`'s loop. -/
def closestTransform (l : List Nat) (value : Nat) : List Nat :=
  l.map (fun i => if value > i then value - i else i)

/-- `utils.closest_value`, for the `none_allowed=True` call made by
`_gcl_get_claims`.  `none` models both the `ValueError` on an empty
list and the `None` return when the minimum is `0`. -/
def closest_value (l : List Nat) (value : Nat) : Option Nat :=
  if l = [] then none
  else
    let t := closestTransform l value
    let m := minNat t
    if m = 0 then none else some (t.indexOf m)

/-! ## Python `str.replace` and the `strip_patterns` normalization

`replaceAll` models Python's `str.replace` (replace every occurrence,
scanning left to right, non-overlapping; all call sites in the embedded
code use a nonempty pattern).  `nl2space` and `collapseSpaces` model
`strip_patterns = [(r"\n", " "), (r" +", " ")]`: newlines become spaces,
then every maximal run of spaces becomes a single space. -/

/-- Python `str.replace`, on character lists, for a nonempty pattern:
fuelled worker (the fuel, initially the input length, dominates it). -/
def replaceAllGo (pat repl : List Char) : Nat → List Char → List Char
  | _, [] => []
  | 0, cs => cs
  | fuel + 1, c :: cs =>
    if pat ≠ [] ∧ pat.isPrefixOf (c :: cs) then
      repl ++ replaceAllGo pat repl fuel ((c :: cs).drop pat.length)
    else
      c :: replaceAllGo pat repl fuel cs

/-- Python `str.replace` (replace every occurrence, scanning left to
right, non-overlapping), for a nonempty pattern. -/
def replaceAll (pat repl : List Char) (s : List Char) : List Char :=
  replaceAllGo pat repl s.length s

/-- `strip_patterns`, first half: newline becomes a space. -/
def nl2space (cs : List Char) : List Char :=
  cs.map (fun c => if c = Char.ofNat 10 then ' ' else c)

/-- `strip_patterns`, second half: every maximal run of spaces becomes
a single space (each run is collapsed onto its last space). -/
def collapseSpaces : List Char → List Char
  | [] => []
  | [c] => [c]
  | a :: b :: rest =>
    if a = ' ' ∧ b = ' ' then collapseSpaces (b :: rest)
    else a :: collapseSpaces (b :: rest)

/-- The full `strip_patterns` normalization. -/
def stripPatterns (cs : List Char) : List Char :=
  collapseSpaces (nl2space cs)

/-- No two adjacent spaces. -/
def noDoubleSpace : List Char → Bool
  | a :: b :: rest => if a = ' ' ∧ b = ' ' then false else noDoubleSpace (b :: rest)
  | _ => true

/-- A pattern with no space at its end and no two adjacent spaces. -/
def SpaceSeparated (p : List Char) : Prop :=
  p.getLast? ≠ some ' ' ∧ noDoubleSpace p = true

/-! ## `gcl_citor`: the case-number placeholder and date choice

Embedding of the citation-composition sites of `gcl_citor`
(`tools/gcl/gcl.py`).  Federal branch (lines 478–491):

```python
delimiter, court_type = cdata[1:3]
court_type = self.jurisdictions["federal_courts"][court_type]
court_type_spaced = f"{court_type} " if court_type else ""
case_number = "" if delimiter == "-" else f", No. XXXXXX"
date = year if delimiter == "-" else self._gcl_get_date(html_text, True)
citation = regex(citation.replace(cdata[0],
    f"{case_number} ({court_type_spaced}{court_name_spaced}{date})"),
    self.strip_patterns)
```

State branch (lines 519–531) composes
`f"{case_number} ({state_spaced}{court_name_spaced}{date})"` with the
same `case_number`/`date` rule.  The delimiter captured by
`federal_court_patterns`/`state_court_patterns` is the character class
`[,-]`, so it is always `","` or `"-"`.  The jurisdiction-table lookups
(`court_type`, `court_name`) and `_gcl_get_date` are inputs here. -/

/-- The case-number fragment: empty for a published (hyphen) header,
`", No. XXXXXX"` for an unpublished (comma) header. -/
def case_number_of (delimiter : String) : String :=
  if delimiter = "-" then "" else ", No. XXXXXX"

/-- The date used in the parenthesis: the literal matched year for a
published (hyphen) header, the re-derived short date otherwise. -/
def citor_date (delimiter year derived : String) : String :=
  if delimiter = "-" then year else derived

/-- The replacement string composed by the federal branch. -/
def federal_replacement (delimiter court_type_spaced court_name_spaced year derived : String) :
    String :=
  case_number_of delimiter ++ " (" ++ court_type_spaced ++ court_name_spaced ++
    citor_date delimiter year derived ++ ")"

/-- The replacement string composed by the state branch. -/
def state_replacement (delimiter state_spaced court_name_spaced year derived : String) :
    String :=
  case_number_of delimiter ++ " (" ++ state_spaced ++ court_name_spaced ++
    citor_date delimiter year derived ++ ")"

/-- `citation.replace(cdata[0], replacement)` followed by
`strip_patterns`, as applied to the citation header by both branches. -/
def citor_update (citation matched replacement : String) : List Char :=
  stripPatterns (replaceAll matched.data replacement.data citation.data)

/-- The docket-number placeholder `gcl_parse` later substitutes. -/
def citePlaceholder : List Char := ("No. XXXXXX" : String).data

/-- A citation (as characters) carries the placeholder. -/
def HasPlaceholder (cs : List Char) : Prop :=
  ∃ a b, cs = a ++ citePlaceholder ++ b

/-! ## `gcl_parse`: the `cites_to` accumulator

Embedding of the per-link accumulation (`tools/gcl/gcl.py`, lines
192–213):

```python
ct = {"name": case_name, "citations": [case_citation]}
if not case["cites_to"]:
    case["cites_to"] = {id_: [ct]}
else:
    if case["cites_to"].get(id_, None):
        for el in case["cites_to"][id_]:
            if el["name"] == case_name:
                if case_citation not in el["citations"]:
                    el["citations"].append(case_citation)
            else:
                case["cites_to"][id_] = [ct]
    else:
        case["cites_to"][id_] = [ct]
```

The dict is modelled as an association list in insertion order.  The
`for` loop iterates over the list object originally bound to the key:
if any element's name differs from `case_name`, the key is re-assigned
to the fresh singleton `[ct]` (appends into elements of the old list are
no longer visible); if every element's name matches, each such element
has the citation appended unless already present. -/

/-- One `{name, citations}` entry of the citation graph. -/
structure CiteEntry where
  name : Option String
  citations : List String
deriving DecidableEq, Repr

/-- Dict value re-assignment (the key is already present). -/
def upsert (acc : List (String × List CiteEntry)) (k : String) (v : List CiteEntry) :
    List (String × List CiteEntry) :=
  acc.map (fun p => if p.1 = k then (k, v) else p)

/-- Net effect on the bound list of the Python `for` loop above. -/
def citesLoop (l : List CiteEntry) (nm : Option String) (cit : String) :
    List CiteEntry :=
  if ∀ el ∈ l, el.name = nm then
    l.map (fun el =>
      if cit ∈ el.citations then el else ⟨el.name, el.citations ++ [cit]⟩)
  else
    [⟨nm, [cit]⟩]

/-- Processing one inline case-reference link. -/
def cites_to_step (acc : List (String × List CiteEntry)) (id_ : String)
    (nm : Option String) (cit : String) : List (String × List CiteEntry) :=
  let ct : CiteEntry := ⟨nm, [cit]⟩
  if acc = [] then [(id_, [ct])]
  else
    match List.lookup id_ acc with
    | some l => if l ≠ [] then upsert acc id_ (citesLoop l nm cit)
                else upsert acc id_ [ct]
    | none => acc ++ [(id_, [ct])]

/-! ## `gcl_parse`: the missing-opinion-root guard

`gcl_parse` starts with (lines 156–161):

```python
opinion = html_text.find(id="gs_opinion")
if not opinion:
    print(f'Serialization failed for "{path_or_url}"')
    return {}
```

The document is modelled by whether the `gs_opinion` root is present
(`opinion : Option α`); the rest of the parse is a function from the
root to a record or to a raised exception (`Except`).  The empty dict
returned on a missing root is modelled as `none`. -/

/-- A fetched case-law page: `opinion` is the `gs_opinion` element. -/
structure GclPage (α : Type) where
  opinion : Option α

/-- `gcl_parse`'s control flow around the missing-root guard:
an absent opinion root yields the empty record (no exception); otherwise
the body of the parse runs (and may raise). -/
def gcl_parse_guard {α β : Type} (parse_body : α → Except String β)
    (page : GclPage α) : Except String (Option β) :=
  match page.opinion with
  | none => Except.ok none
  | some op => (parse_body op).map some

/-! ## `_gcl_casenumber`: docket fragment normalization and repair

The post-processing of `_gcl_casenumber` (`tools/gcl/gcl.py`,
lines 688–695):

```python
docket_numbers = regex(case_num.get_text(), self.docket_patterns).split(",")
docket_numbers = regex(docket_numbers, self.extra_char_patterns)
# Correct the docket numbers if they start with '-'
for i, d in enumerate(docket_numbers):
    if d.startswith("-"):
        docket_numbers[i] = f'{docket_numbers[i-1].split("-")[0]}{d}'
```

At `i = 0` the Python index `i-1 = -1` refers to the *last* element of
the (not yet modified) list; for `i > 0` it is the immediate
predecessor, already repaired in place. -/

/-- Python `str.split(sep)` for a nonempty separator: fuelled worker. -/
def pySplitGo (sep : List Char) : Nat → List Char → List (List Char)
  | _, [] => [[]]
  | 0, cs => [cs]
  | fuel + 1, c :: cs =>
    if sep ≠ [] ∧ sep.isPrefixOf (c :: cs) then
      [] :: pySplitGo sep fuel ((c :: cs).drop sep.length)
    else
      match pySplitGo sep fuel cs with
      | [] => [[c]]
      | h :: t => (c :: h) :: t

/-- Python `str.split(sep)` for a nonempty separator. -/
def pySplit (sep : List Char) (cs : List Char) : List (List Char) :=
  pySplitGo sep cs.length cs

/-- `d.split("-")[0]`: the base number before the first hyphen. -/
def baseOf (s : String) : String :=
  String.mk ((pySplit ['-'] s.data).headD [])

/-- `d.startswith("-")`. -/
def startsHyphen (d : String) : Bool := d.data.head? == some '-'

/-- One iteration of the repair loop at index `i`. -/
def repairStep (l : List String) (i : Nat) : List String :=
  let d := l.getD i ""
  if startsHyphen d then
    let j := if i = 0 then l.length - 1 else i - 1
    l.set i (baseOf (l.getD j "") ++ d)
  else l

/-- The repair loop run on the first `k` indices. -/
def repairUpTo (l : List String) (k : Nat) : List String :=
  (List.range k).foldl repairStep l

/-- The full leading-hyphen repair loop. -/
def repairHyphens (l : List String) : List String :=
  repairUpTo l l.length

/-! ## `_gcl_get_claims`: footnote detach / substitute / re-append

Tree-manipulation prologue of `_gcl_get_claims` (lines 848–872) and the
footnote extraction of `gcl_parse` (lines 266–279):

```python
small_tag = opinion.find_all("small")
footnotes_data, footnote_tags = {}, []
if small_tag:
    footnotes = small_tag[-1].find_all("a", class_="gsl_hash")
    for tag in footnotes:
        parent_tag = tag.parent
        footnote_tags.append(tag.parent)
        tag.parent.replaceWith("")
        footnotes_data[tag.attrs["name"]] = regex(parent_tag.get_text(), ...)
...
# Append the footnote tags back to the opinion.
for tag in footnote_tags:
    opinion.small.append(tag)
# Bring the footnote context in the text for keeping continuity.
for key, val in footnotes_data.items():
    modified_opinion = modified_opinion.replace(f"@@@@{key}", val)
```

The document is modelled by its `<small>` elements, each reduced to the
ordered footnote paragraphs it contains (an anchor `name` and the
paragraph's cleaned text); detaching removes them from the *last*
`<small>`, while `opinion.small.append(tag)` re-appends them to the
*first* `<small>` in document order.  `gcl_parse` then extracts the
footnote list from the last `<small>`. -/

/-- A footnote paragraph: anchor name and cleaned context text. -/
structure Footnote where
  name : String
  body : String
deriving DecidableEq, Repr

/-- An opinion document, reduced to its `<small>` elements (each the
ordered list of footnote paragraphs it holds) and its body text. -/
structure OpinionDoc where
  smalls : List (List Footnote)
  bodyText : String
deriving DecidableEq, Repr

/-- Python `str.replace` on `String`. -/
def pyReplaceStr (s pat repl : String) : String :=
  String.mk (replaceAll pat.data repl.data s.data)

/-- The footnote phase of `_gcl_get_claims`: detach the footnote
paragraphs of the last `<small>`, substitute their bodies for the
`@@@@<id>` tokens in the working text, and re-append the detached
paragraphs to `opinion.small` — the *first* `<small>`.  Returns the
mutated document and the substituted working text. -/
def gcl_footnote_phase (op : OpinionDoc) : OpinionDoc × String :=
  match op.smalls.getLast? with
  | none => (op, op.bodyText)
  | some ls =>
    let emptied := op.smalls.set (op.smalls.length - 1) []
    let restored :=
      match emptied with
      | [] => []
      | first :: rest => (first ++ ls) :: rest
    let text := ls.foldl (fun t f => pyReplaceStr t ("@@@@" ++ f.name) f.body) op.bodyText
    (⟨restored, op.bodyText⟩, text)

/-- The footnote-list extraction of `gcl_parse`: identifier and context
of each footnote paragraph of the last `<small>`, in order. -/
def extract_footnotes (op : OpinionDoc) : List (String × String) :=
  match op.smalls.getLast? with
  | none => []
  | some ls => ls.map (fun f => (f.name, f.body))

/-! ## A small regex engine

The embedded patterns use only character classes, literals, sequencing,
ordered alternation, optional parts and greedy one-or-more repetition of
a character class.  `matchRE re cs` returns the possible remainders of a
match starting at the head of `cs`, in the priority order of Python's
backtracking engine (alternatives left to right, repetition and optional
parts longest first); the head of the list is the remainder Python's
leftmost match leaves.  `subAll` is `re.sub` with a literal replacement:
scan left to right, at each position take the engine's first match if
any, emit the replacement and resume after it, otherwise copy one
character.  (The guard against zero-width matches is never exercised:
every embedded pattern consumes at least one character.) -/

/-- Regex abstract syntax. -/
inductive RE where
  | cls (p : Char → Bool)
  | seq (a b : RE)
  | alt (a b : RE)
  | opt (a : RE)
  | many1 (p : Char → Bool)

/-- All remainders of a match of `re` at the head of `cs`, in the
backtracking engine's priority order. -/
def matchRE : RE → List Char → List (List Char)
  | .cls _, [] => []
  | .cls p, c :: cs => if p c then [cs] else []
  | .seq a b, cs => (matchRE a cs).flatMap (fun m => matchRE b m)
  | .alt a b, cs => matchRE a cs ++ matchRE b cs
  | .opt a, cs => matchRE a cs ++ [cs]
  | .many1 p, cs =>
    let run := (cs.takeWhile p).length
    (List.range run).map (fun i => cs.drop (run - i))

/-- A literal character. -/
def lit (c : Char) : RE := .cls (fun x => x == c)

/-- Extend a regex by a literal string, one character at a time. -/
def reSeqStr (r : RE) (s : String) : RE :=
  s.data.foldl (fun acc c => .seq acc (lit c)) r

/-- `re.sub` scanning worker (fuelled; the fuel, initially the input
length, dominates it). -/
def subAllGo (re : RE) (repl : List Char) : Nat → List Char → List Char
  | _, [] => []
  | 0, cs => cs
  | fuel + 1, c :: cs =>
    match (matchRE re (c :: cs)).head? with
    | some rest =>
      if rest.length < cs.length + 1 then repl ++ subAllGo re repl fuel rest
      else c :: subAllGo re repl fuel cs
    | none => c :: subAllGo re repl fuel cs

/-- `re.sub(pattern, repl, s)` for a literal replacement. -/
def subAll (re : RE) (repl : List Char) (s : List Char) : List Char :=
  subAllGo re repl s.length s

/-! ## `_gcl_get_patents`

```python
def _gcl_get_patents(self, opinion):
    text = opinion.get_text()
    modified_opinion = regex(text, [*self.page_patterns, *self.strip_patterns])
    patents = regex(modified_opinion, self.patent_number_patterns_1, sub=False)
    patent_refs = set(
        regex(modified_opinion, [(self.patent_reference_pattern, "")], sub=False)
    )
    if patent_refs:
        patents = [f"US{self.uspto_grab_patent_number(x)}"
                   for x in patents if x[-3:] in patent_refs]
    elif regex(text, [(r"[pP]atents-in-[sS]uit", "")]):
        patents = [f"US{self.uspto_grab_patent_number(x)}" for x in patents]
    return remove_repeated([x for x in patents if x != "US"])
```

The two scans producing the candidate list `patents` and the
reference-token set `patent_refs` are inputs of the embedded filter; the
`elif` condition is embedded exactly as written: `regex(text, [...])`
with the default `sub=True` is `re.sub(r"[pP]atents-in-[sS]uit", "", text)`,
whose truthiness tests that the text with the phrase deleted is
non-empty — not that the phrase occurs. -/

/-- `[pP]atents-in-[sS]uit`. -/
def patents_in_suit_re : RE :=
  reSeqStr
    (.seq (reSeqStr (.cls (fun c => c == 'p' || c == 'P')) "atents-in-")
          (.cls (fun c => c == 's' || c == 'S')))
    "uit"

/-- `re.sub(r"[pP]atents-in-[sS]uit", "", text)`: the value whose
truthiness the `elif` actually tests. -/
def phrase_sub_result (text : String) : List Char :=
  subAll patents_in_suit_re [] text.data

/-- Whether the phrase `[pP]atents-in-[sS]uit` occurs in the text at all
(what a `sub=False` presence check would test). -/
def phrase_occurs (text : String) : Bool :=
  text.data.tails.any (fun t => !(matchRE patents_in_suit_re t).isEmpty)

/-- A Python `\w` word character. -/
def wordChar (c : Char) : Bool := c.isAlphanum || c == '_'

/-- `extra_char_patterns`: strip one leading and one trailing run of
`[,. ]`. -/
def stripExtraChars (cs : List Char) : List Char :=
  let f : Char → Bool := fun c => c == ',' || c == '.' || c == ' '
  ((cs.dropWhile f).reverse.dropWhile f).reverse

/-- The local cleaning of `uspto_grab_patent_number`:
`extra_char_patterns` then `special_chars_patterns` (`\W` removed). -/
def cleanNumber (number : String) : String :=
  String.mk ((stripExtraChars number.data).filter wordChar)

/-- `uspto_grab_patent_number`.  The USPTO network lookup used for
application numbers (containing `/`) is out of scope and abstracted by
`lookup`; every other number is cleaned locally. -/
def uspto_grab_patent_number (lookup : String → String) (number : String) : String :=
  if number.data.contains '/' then lookup number else cleanNumber number

/-- `utils.remove_repeated` (`dict.fromkeys` keeps first occurrences). -/
def remove_repeated {α : Type} [DecidableEq α] : List α → List α :=
  go []
where
  /-- Worker carrying the set of already-seen elements. -/
  go (seen : List α) : List α → List α
    | [] => []
    | x :: xs => if x ∈ seen then go seen xs else x :: go (x :: seen) xs

/-- `x[-3:]`. -/
def lastThree (s : String) : String :=
  String.mk (s.data.drop (s.data.length - 3))

/-- The filtering stage of `_gcl_get_patents`, over the scanned
candidates and reference tokens. -/
def gcl_get_patents_filter (lookup : String → String) (patents : List String)
    (patent_refs : List String) (text : String) : List String :=
  let patents2 :=
    if patent_refs ≠ [] then
      (patents.filter (fun x => lastThree x ∈ patent_refs)).map
        (fun x => "US" ++ uspto_grab_patent_number lookup x)
    else if phrase_sub_result text ≠ [] then
      patents.map (fun x => "US" ++ uspto_grab_patent_number lookup x)
    else patents
  remove_repeated (patents2.filter (fun x => x ≠ "US"))

/-! ## `gcl_patent_data`: the claims table

Claim-table construction (`tools/gcl/gcl.py`, lines 1005–1035):

```python
last_independent_num = 1
extra_count = 0
for tag in claim_tags:
    in_tag = tag.find(lambda tag: tag.name == "div" and tag.attrs.get("num", None))
    if in_tag:
        num = in_tag.attrs["num"]
        if "-" in num:
            extra_count += 1  # Fixes wrong counting of claims.
            num = int(regex(num, [(r"-.*$", "")])) + extra_count
        else:
            num = int(num) + extra_count
        context = regex(tag.get_text(), [*relevant_patterns, (r"^\d+\. ", "")])
        attach_data = {"claim_number": num, "context": context, "dependent_on": None}
        info["claims"][num] = attach_data
        if "claim-dependent" not in tag.attrs["class"]:
            last_independent_num = num
        else:
            info["claims"][num]["dependent_on"] = last_independent_num
```

A claim element is modelled by its displayed `num` attribute, its
dependent flag (`"claim-dependent"` in the class list) and its cleaned
context text.  `int(...)` is modelled for digit strings (the only form
the attribute takes), raising (`none`) otherwise. -/

/-- A claim element of the patent document. -/
structure ClaimTag where
  num : String
  dependent : Bool
  context : String
deriving DecidableEq, Repr

/-- A row of the claims table. -/
structure ClaimRow where
  claim_number : Nat
  context : String
  dependent_on : Option Nat
deriving DecidableEq, Repr

/-- Value of a digit string. -/
def digitsVal (cs : List Char) : Nat :=
  cs.foldl (fun n c => 10 * n + (c.toNat - 48)) 0

/-- Python `int()` on the digit strings that occur as `num` attributes;
`none` models the `ValueError` on anything else. -/
def parseNatDigits (cs : List Char) : Option Nat :=
  if cs ≠ [] ∧ cs.all Char.isDigit then some (digitsVal cs) else none

/-- `regex(num, [(r"-.*$", "")])`: everything from the first hyphen on
is removed. -/
def numBeforeHyphen (s : String) : String :=
  String.mk (s.data.takeWhile (fun c => c != '-'))

/-- The displayed base number of a claim element, after the
design-patent range/suffix correction of its text. -/
def tagBase (t : ClaimTag) : Option Nat :=
  parseNatDigits
    (if t.num.data.contains '-' then (numBeforeHyphen t.num).data else t.num.data)

/-- The claim-table loop (state: `last_independent_num`, `extra_count`). -/
def gcl_patent_claims_go (last_independent_num extra_count : Nat) :
    List ClaimTag → Option (List ClaimRow)
  | [] => some []
  | t :: ts =>
    let hyph := t.num.data.contains '-'
    let extra2 := if hyph then extra_count + 1 else extra_count
    match tagBase t with
    | none => none
    | some b =>
      let n := b + extra2
      let row : ClaimRow :=
        ⟨n, t.context, if t.dependent then some last_independent_num else none⟩
      let last2 := if t.dependent then last_independent_num else n
      (gcl_patent_claims_go last2 extra2 ts).map (fun rows => row :: rows)

/-- The rows of the claims table built by `gcl_patent_data`, in document
order. -/
def gcl_patent_claims (tags : List ClaimTag) : Option (List ClaimRow) :=
  gcl_patent_claims_go 1 0 tags

/-- The claim number of the nearest entry before position `i` that is
not dependent (the spec's nearest preceding independent claim);
`dflt` when there is none (the loop's initial anchor `1`). -/
def nearestPrecedingIndependent (rows : List ClaimRow) (i : Nat) (dflt : Nat) : Nat :=
  (((rows.take i).filter (fun r => r.dependent_on = none)).getLast?).elim
    dflt (fun r => r.claim_number)

/-!
### C5 — `_gcl_get_claims` claim-list expansion (gcl.py 934-940, utils.py 363-382)

```python
def hyphen_to_numbers(string):
    string_lst = list(map(lambda x: re.sub(r"^-|-$", "", x), string.split(" ")))
    final_list = []
    for x in string_lst:
        if re.search(r"\d+-\d+", x):
            lst = [
                (lambda sub: range(sub[0], sub[-1] + 1))(list(map(int, ele.split("-"))))
                for ele in x.split(", ")
            ]
            final_list += [str(b) for a in lst for b in a]
        else:
            final_list += [x.replace("-", "")]
    return " ".join(final_list)

def sort_int(string):
    return [int(c) if c.isdigit() else c for c in re.split(r"(\d+)", string)]

for key, value in claims_from_patent.items():
    value = [hyphen_to_numbers(x).split(" ") for x in value if x]
    if value:
        claims_from_patent[key] = sorted(
            remove_repeated(reduce(concat, value)), key=sort_int
        )
```
-/

/-- The decimal digit character for `d < 10` (`'*'` is never reached). -/
def digitChar : Nat → Char
  | 0 => '0'
  | 1 => '1'
  | 2 => '2'
  | 3 => '3'
  | 4 => '4'
  | 5 => '5'
  | 6 => '6'
  | 7 => '7'
  | 8 => '8'
  | 9 => '9'
  | _ => '*'

/-- Fuelled decimal printer (the fuel only serves structural recursion). -/
def natToStrGo : Nat → Nat → List Char
  | 0, _ => []
  | fuel + 1, n =>
    if n < 10 then [digitChar n] else natToStrGo fuel (n / 10) ++ [digitChar (n % 10)]

/-- Python `str(n)` for a natural number. -/
def natToStr (n : Nat) : List Char := natToStrGo (n + 1) n

/-- `re.sub(r"^-|-$", "", x)`: one leading and one trailing hyphen removed. -/
def strip_edge_hyphens (s : List Char) : List Char :=
  let s1 := if s.head? = some '-' then s.tail else s
  if s1.getLast? = some '-' then s1.dropLast else s1

/-- `re.search(r"\d+-\d+", x)` is truthy iff some digit is immediately
followed by a hyphen and another digit. -/
def hasRangeTriple : List Char → Bool
  | a :: b :: c :: rest => (a.isDigit && b == '-' && c.isDigit) || hasRangeTriple (b :: c :: rest)
  | _ => false

/-- `mapM` over `Option`, spelled out for easy unfolding. -/
def omapM {α β : Type} (f : α → Option β) : List α → Option (List β)
  | [] => some []
  | x :: xs => (f x).bind fun y => (omapM f xs).map fun ys => y :: ys

/-- One token's contribution to `final_list`; `none` models the
`ValueError` raised by `int()` on a non-numeral fragment. -/
def tokExpandM (tok : List Char) : Option (List (List Char)) :=
  if hasRangeTriple tok then
    (omapM (fun ele =>
      (omapM parseNatDigits (pySplit ['-'] ele)).bind (fun ints =>
        match ints.head?, ints.getLast? with
        | some a, some b => some ((List.range' a (b + 1 - a)).map natToStr)
        | _, _ => none)) (pySplit [',', ' '] tok)).map List.flatten
  else
    some [tok.filter (fun c => c != '-')]

/-- `" ".join(...)`. -/
def joinSpace : List (List Char) → List Char
  | [] => []
  | [x] => x
  | x :: xs => x ++ ' ' :: joinSpace xs

/-- `utils.hyphen_to_numbers`. -/
def hyphen_to_numbers (s : String) : Option String :=
  (omapM tokExpandM ((pySplit [' '] s.data).map strip_edge_hyphens)).map
    (fun parts => String.mk (joinSpace parts.flatten))

/-- `utils.sort_int` key computation, fuelled scanner over the string:
`re.split(r"(\d+)", s)` alternates digit-free chunks (kept as strings)
and maximal digit runs (converted by `int`). -/
def splitRunsGo : Nat → List Char → List (Nat ⊕ String)
  | _, [] => [Sum.inr ""]
  | 0, c :: cs => [Sum.inr (String.mk (c :: cs))]
  | fuel + 1, c :: cs =>
    let nd := (c :: cs).takeWhile (fun x => !x.isDigit)
    match (c :: cs).dropWhile (fun x => !x.isDigit) with
    | [] => [Sum.inr (String.mk nd)]
    | d :: rest =>
      Sum.inr (String.mk nd) :: Sum.inl (digitsVal ((d :: rest).takeWhile Char.isDigit)) ::
        splitRunsGo fuel ((d :: rest).dropWhile Char.isDigit)

/-- `utils.sort_int`. -/
def sort_int (s : String) : List (Nat ⊕ String) :=
  splitRunsGo (s.data.length + 1) s.data

def cmpNat (a b : Nat) : Ordering :=
  if a < b then .lt else if a = b then .eq else .gt

/-- Python's `<` on strings: lexicographic comparison by code point. -/
def cmpChars : List Char → List Char → Ordering
  | [], [] => .eq
  | [], _ :: _ => .lt
  | _ :: _, [] => .gt
  | a :: as, b :: bs =>
    if a.toNat < b.toNat then .lt else if b.toNat < a.toNat then .gt else cmpChars as bs

def cmpStr (a b : String) : Ordering :=
  cmpChars a.data b.data

/-- Comparison of one key component. Python raises `TypeError` on a
mixed `int`/`str` comparison; actual keys always align (string chunks at
even positions, integers at odd ones), so the mixed rows are unreachable. -/
def cmpComp : Nat ⊕ String → Nat ⊕ String → Ordering
  | Sum.inl a, Sum.inl b => cmpNat a b
  | Sum.inr a, Sum.inr b => cmpStr a b
  | Sum.inl _, Sum.inr _ => .lt
  | Sum.inr _, Sum.inl _ => .gt

/-- Python's lexicographic list comparison on keys. -/
def cmpKey : List (Nat ⊕ String) → List (Nat ⊕ String) → Ordering
  | [], [] => .eq
  | [], _ :: _ => .lt
  | _ :: _, [] => .gt
  | a :: as, b :: bs =>
    match cmpComp a b with
    | .eq => cmpKey as bs
    | o => o

def sortIntLeB (a b : String) : Bool :=
  cmpKey (sort_int a) (sort_int b) != Ordering.gt

/-- `sort_int a <= sort_int b`: the order `sorted(..., key=sort_int)` uses. -/
def sortIntLe (a b : String) : Prop := sortIntLeB a b = true

instance : DecidableRel sortIntLe := fun a b =>
  show Decidable (sortIntLeB a b = true) from instDecidableEqBool _ _

/-- The loop body of `_gcl_get_claims`'s final normalization (gcl.py
934-940) on one key's list of claim-value strings; `sorted` is Python's
stable ascending sort, modelled by insertion sort. A `none` result
models an `int()` `ValueError`; the all-empty case (where the code keeps
the previous, unexpanded list) yields `some []`, which no key reaches. -/
def expand_claim_value (value : List String) : Option (List String) :=
  (omapM (fun x => (hyphen_to_numbers x).map
      (fun h => (pySplit [' '] h.data).map String.mk))
    (value.filter (fun x => x ≠ ""))).map
    (fun pieces => List.insertionSort sortIntLe (remove_repeated pieces.flatten))

/-- `regex(i, just_number_patterns, sub=False)`: `^\d+$`. -/
def isJustNumber (s : String) : Bool :=
  !s.data.isEmpty && s.data.all Char.isDigit

/-- `cited_claims` (gcl.py 254-258): the final numeric claim list. -/
def cited_claims (value : List String) : List Nat :=
  (value.filter (fun i => isJustNumber i)).map (fun i => digitsVal i.data)

/-- `re.sub(r"(\d+)[\- ]+(\d+)", r"\g<1>-\g<2>", s)` as a fuelled
left-to-right scanner: at each position a maximal digit run, a maximal
run of hyphens/spaces and a second maximal digit run are matched
greedily; on success the separator run is replaced by a single hyphen
and scanning resumes after the second run. -/
def normRangeGo : Nat → List Char → List Char
  | _, [] => []
  | 0, cs => cs
  | fuel + 1, c :: cs =>
    let s := c :: cs
    let d1 := s.takeWhile Char.isDigit
    let r1 := s.dropWhile Char.isDigit
    let sep := r1.takeWhile (fun x => x == '-' || x == ' ')
    let r2 := r1.dropWhile (fun x => x == '-' || x == ' ')
    let d2 := r2.takeWhile Char.isDigit
    let r3 := r2.dropWhile Char.isDigit
    if d1 ≠ [] ∧ sep ≠ [] ∧ d2 ≠ [] then
      d1 ++ '-' :: (d2 ++ normRangeGo fuel r3)
    else
      c :: normRangeGo fuel cs

/-- `[^0-9\-]+`. -/
def nonDigitHyphen (c : Char) : Bool := !(c.isDigit || c == '-')

/-- `space_patterns`: `^ +| +$` removed. -/
def stripSpaceEnds (cs : List Char) : List Char :=
  ((cs.dropWhile (fun c => c == ' ')).reverse.dropWhile (fun c => c == ' ')).reverse

/-- The `new_value` normalization of `_gcl_get_claims` (gcl.py 915-925):
digit ranges canonicalized, every other non-digit run turned into a
space, then `strip_patterns` and `space_patterns`. -/
def claim_value_normalize (s : String) : String :=
  String.mk (stripSpaceEnds (stripPatterns
    (subAll (RE.many1 nonDigitHyphen) [' '] (normRangeGo (s.data.length + 1) s.data))))

/-- A canonical decimal numeral, exactly the strings `str(n)` produces. -/
def CanonNum (s : String) : Prop := ∃ n, s.data = natToStr n

/-- A well-formed claim token: a decimal numeral or an ascending
numeral range. -/
def TokenWF (tok : List Char) : Prop :=
  (∃ n, tok = natToStr n) ∨ (∃ a b, a ≤ b ∧ tok = natToStr a ++ '-' :: natToStr b)

/-- A well-formed claim-value string: every space-separated token
(after edge-hyphen stripping) is well formed. -/
def ValueWF (s : String) : Prop :=
  ∀ tok ∈ (pySplit [' '] s.data).map strip_edge_hyphens, TokenWF tok

/-- The list of claim strings one claim-value string contributes (the
total counterpart, under `ValueWF`, of `hyphen_to_numbers` followed by
`.split(" ")`). -/
def pieceF (s : String) : List String :=
  ((((pySplit [' '] s.data).map strip_edge_hyphens).map
      (fun tok => (tokExpandM tok).getD [])).flatten).map String.mk

/-- Numeric order on the produced claim strings. -/
def valLt (a b : String) : Prop := digitsVal a.data < digitsVal b.data

/-- Reflexive closure of `valLt`, used to compare the two sorted outputs. -/
def valLtEq (a b : String) : Prop := valLt a b ∨ a = b

instance : IsAntisymm String valLtEq where
  antisymm a b hab hba := by
    rcases hab with h1 | h1
    · rcases hba with h2 | h2
      · exact absurd (Nat.lt_trans h1 h2) (lt_irrefl _)
      · exact h2.symm
    · exact h1

/-!
### C7 — `_gcl_casenumber` docket normalization (gcl.py 675-698)

```python
docket_patterns = [
    (r"(?:[\w .]+)?(?:C\.A|N[Oo][sS]?)\.:? ?", ""),
    (r"\([\w ]+\)", ""),
    (r",? +[Aa][Nn][Dd] +", ","),
]
extra_char_patterns = [(r"^[,. ]+|[,. ]+$", "")]

docket_numbers = regex(case_num.get_text(), self.docket_patterns).split(",")
docket_numbers = regex(docket_numbers, self.extra_char_patterns)
for i, d in enumerate(docket_numbers):
    if d.startswith("-"):
        docket_numbers[i] = f'{docket_numbers[i-1].split("-")[0]}{d}'
```
-/

/-- `(?:[\w .]+)?(?:C\.A|N[Oo][sS]?)\.:? ?`. -/
def docketA : RE :=
  .seq (.opt (.many1 (fun c => wordChar c || c == ' ' || c == '.')))
    (.seq (.alt (.seq (.seq (lit 'C') (lit '.')) (lit 'A'))
        (.seq (lit 'N') (.seq (.cls (fun c => c == 'O' || c == 'o'))
          (.opt (.cls (fun c => c == 'S' || c == 's'))))))
      (.seq (lit '.') (.seq (.opt (lit ':')) (.opt (lit ' ')))))

/-- `\([\w ]+\)`. -/
def docketB : RE :=
  .seq (lit '(') (.seq (.many1 (fun c => wordChar c || c == ' ')) (lit ')'))

/-- `,? +[Aa][Nn][Dd] +` without the leading optional comma. -/
def docketCcore : RE :=
  .seq (.many1 (fun c => c == ' '))
    (.seq (.cls (fun c => c == 'A' || c == 'a'))
      (.seq (.cls (fun c => c == 'N' || c == 'n'))
        (.seq (.cls (fun c => c == 'D' || c == 'd')) (.many1 (fun c => c == ' ')))))

/-- `,? +[Aa][Nn][Dd] +`. -/
def docketC : RE := .seq (.opt (lit ',')) docketCcore

/-- `regex(text, docket_patterns)`: the three substitutions in order. -/
def docket_sub (s : List Char) : List Char :=
  subAll docketC [','] (subAll docketB [] (subAll docketA [] s))

/-- The full fragment pipeline of `_gcl_casenumber` (substitutions,
comma split, punctuation strip, leading-hyphen repair). -/
def gcl_casenumber_fragments (s : String) : List String :=
  repairHyphens ((pySplit [','] (docket_sub s.data)).map
    (fun f => String.mk (stripExtraChars f)))

/-- `sep.join(...)` for a one-character separator. -/
def joinSep (c : Char) : List (List Char) → List Char
  | [] => []
  | [x] => x
  | x :: xs => x ++ c :: joinSep c xs

/-- `re.search(pattern, s)` is falsy: no match at any position. -/
def noMatchAll (re : RE) : List Char → Bool
  | [] => (matchRE re []).isEmpty
  | c :: cs => (matchRE re (c :: cs)).isEmpty && noMatchAll re cs

/-- Characters a match of the pattern can consume. -/
def allowed : RE → Char → Bool
  | .cls p, c => p c
  | .seq a b, c => allowed a c || allowed b c
  | .alt a b, c => allowed a c || allowed b c
  | .opt a, c => allowed a c
  | .many1 p, c => p c

/-- Whether the pattern can match the empty string. -/
def matchesEmptyRE : RE → Bool
  | .cls _ => false
  | .seq a b => matchesEmptyRE a && matchesEmptyRE b
  | .alt a b => matchesEmptyRE a || matchesEmptyRE b
  | .opt _ => true
  | .many1 _ => false

theorem foldl_min_mem : ∀ (xs : List Nat) (x : Nat),
    List.foldl Nat.min x xs = x ∨ List.foldl Nat.min x xs ∈ xs := by
  intro xs
  induction xs with
  | nil => intro x; left; rfl
  | cons b bs ih =>
    intro x
    rcases ih (Nat.min x b) with h | h
    · rcases Nat.le_total x b with hxb | hbx
      · left; simp only [List.foldl_cons, h]; exact Nat.min_eq_left hxb
      · right; simp only [List.foldl_cons, h]
        have : Nat.min x b = b := Nat.min_eq_right hbx
        rw [this]; exact List.mem_cons_self _ _
    · right; exact List.mem_cons_of_mem _ h

theorem foldl_min_le : ∀ (xs : List Nat) (x y : Nat),
    (y = x ∨ y ∈ xs) → List.foldl Nat.min x xs ≤ y := by
  intro xs
  induction xs with
  | nil =>
    intro x y h
    rcases h with rfl | h
    · exact le_refl _
    · cases h
  | cons b bs ih =>
    intro x y h
    simp only [List.foldl_cons]
    rcases h with rfl | h
    · exact le_trans (ih _ _ (Or.inl rfl)) (Nat.min_le_left _ _)
    · rcases List.mem_cons.mp h with rfl | h
      · exact le_trans (ih _ _ (Or.inl rfl)) (Nat.min_le_right _ _)
      · exact ih _ _ (Or.inr h)

/-- `minNat` of a nonempty list is a member and a lower bound. -/
theorem minNat_mem_and_le (x : Nat) (xs : List Nat) :
    minNat (x :: xs) ∈ x :: xs ∧ ∀ y ∈ x :: xs, minNat (x :: xs) ≤ y := by
  constructor
  · rcases foldl_min_mem xs x with h | h
    · rw [minNat, h]; exact List.mem_cons_self _ _
    · exact List.mem_cons_of_mem _ h
  · intro y hy
    rcases List.mem_cons.mp hy with rfl | hy
    · exact foldl_min_le xs y y (Or.inl rfl)
    · exact foldl_min_le xs x y (Or.inr hy)

theorem minNat_spec (L : List Nat) (h : L ≠ []) :
    minNat L ∈ L ∧ ∀ y ∈ L, minNat L ≤ y := by
  match L with
  | [] => exact absurd rfl h
  | x :: xs => exact minNat_mem_and_le x xs

theorem indexOf_append_cons (t₁ t₂ : List Nat) (m : Nat) (h : m ∉ t₁) :
    (t₁ ++ m :: t₂).indexOf m = t₁.length := by
  induction t₁ with
  | nil => simp
  | cons a t ih =>
    have ha : a ≠ m := by
      intro hh; exact h (hh ▸ List.mem_cons_self a t)
    have hm : m ∉ t := fun hh => h (List.mem_cons_of_mem _ hh)
    simp only [List.cons_append, List.indexOf_cons, List.length_cons]
    have hb : (a == m) = false := beq_false_of_ne ha
    rw [hb, cond_false, ih hm]

/-- In a list of the shape `t₁ ++ m :: t₂` where `m` is strictly below
every element of `t₁` and at most every element of `t₂`, the minimum is
`m` and its first index is `t₁.length`. -/
theorem min_index_valley (t₁ t₂ : List Nat) (m : Nat)
    (h1 : ∀ x ∈ t₁, m < x) (h2 : ∀ x ∈ t₂, m ≤ x) :
    minNat (t₁ ++ m :: t₂) = m ∧ (t₁ ++ m :: t₂).indexOf m = t₁.length := by
  have hne : t₁ ++ m :: t₂ ≠ [] := by simp
  obtain ⟨hmem, hle⟩ := minNat_spec _ hne
  have hmin : minNat (t₁ ++ m :: t₂) = m := by
    have hlem : minNat (t₁ ++ m :: t₂) ≤ m := hle m (by simp)
    rcases List.mem_append.mp hmem with hm | hm
    · exact absurd (lt_of_lt_of_le (h1 _ hm) hlem) (lt_irrefl m)
    · rcases List.mem_cons.mp hm with hm | hm
      · exact hm
      · exact le_antisymm hlem (h2 _ hm)
  refine ⟨hmin, ?_⟩
  apply indexOf_append_cons
  intro hmem1
  exact absurd (h1 m hmem1) (lt_irrefl m)

theorem sorted_dropWhile_not_lt (v : Nat) : ∀ (l : List Nat),
    l.Sorted (· < ·) → ∀ x ∈ l.dropWhile (fun r => decide (r < v)), ¬ x < v := by
  intro l
  induction l with
  | nil => intro _ x hx; simp [List.dropWhile] at hx
  | cons a l ih =>
    intro hs x hx
    rw [List.sorted_cons] at hs
    by_cases ha : a < v
    · rw [List.dropWhile_cons_of_pos (by simpa using ha)] at hx
      exact ih hs.2 x hx
    · rw [List.dropWhile_cons_of_neg (by simpa using ha)] at hx
      rcases List.mem_cons.mp hx with rfl | hx
      · exact ha
      · intro hxv
        exact ha (lt_trans (hs.1 x hx) hxv)

/-- C1: for every claim-number match not directly bound to a patent reference,
when at least one short-form patent-reference occurrence is recorded
(`ref_location` nonempty, offsets strictly increasing as produced by
`re.finditer`), `_gcl_get_claims` binds the match (at offset `v > 0`) via
`closest_value` to the reference minimizing the non-negative difference
`v - ref` over references preceding the match — i.e. to the nearest
preceding reference — and only when no reference precedes does it bind to
the nearest reference overall (all of which then lie at or after `v`). -/
theorem claim_C1 (refs : List Nat) (v : Nat)
    (hne : refs ≠ []) (hsorted : refs.Sorted (· < ·)) (hv : 0 < v) :
    ∃ idx rstar, closest_value refs v = some idx ∧ refs[idx]? = some rstar ∧
      ((∃ r ∈ refs, r < v) → rstar < v ∧ ∀ r ∈ refs, r < v → r ≤ rstar) ∧
      ((∀ r ∈ refs, ¬ r < v) → ∀ r ∈ refs, rstar ≤ r) := by
  classical
  set p : Nat → Bool := fun r => decide (r < v) with hp
  have hsplit : refs.takeWhile p ++ refs.dropWhile p = refs :=
    List.takeWhile_append_dropWhile p refs
  have hpre_lt : ∀ x ∈ refs.takeWhile p, x < v := by
    intro x hx
    have := List.mem_takeWhile_imp hx
    simpa [hp] using this
  have hsuf_ge : ∀ x ∈ refs.dropWhile p, ¬ x < v :=
    sorted_dropWhile_not_lt v refs hsorted
  rcases List.eq_nil_or_concat (refs.takeWhile p) with hpre | ⟨pre2, pstar, hpre0⟩
  · -- no reference precedes the claim offset
    have hall : ∀ x ∈ refs, ¬ x < v := by
      intro x hx
      apply hsuf_ge
      rw [← hsplit] at hx
      rcases List.mem_append.mp hx with h | h
      · rw [hpre] at h; cases h
      · exact h
    have ht : closestTransform refs v = refs := by
      unfold closestTransform
      have hid : ∀ i ∈ refs, (if v > i then v - i else i) = id i := by
        intro i hi
        simp [hall i hi]
      rw [List.map_congr_left hid, List.map_id]
    obtain ⟨r₀, rest, hrefs⟩ : ∃ r₀ rest, refs = r₀ :: rest := by
      cases refs with
      | nil => exact absurd rfl hne
      | cons a l => exact ⟨a, l, rfl⟩
    have hrest : ∀ x ∈ rest, r₀ ≤ x := by
      intro x hx
      have hs2 := hsorted
      rw [hrefs, List.sorted_cons] at hs2
      exact le_of_lt (hs2.1 x hx)
    have hvalley := min_index_valley [] rest r₀ (by intro x hx; cases hx) hrest
    simp only [List.nil_append, List.length_nil] at hvalley
    have hm0 : minNat (closestTransform refs v) ≠ 0 := by
      rw [ht, hrefs, hvalley.1]
      have : ¬ r₀ < v := hall r₀ (by rw [hrefs]; exact List.mem_cons_self _ _)
      omega
    refine ⟨0, r₀, ?_, ?_, ?_, ?_⟩
    · unfold closest_value
      rw [if_neg hne]
      simp only []
      rw [if_neg hm0, ht, hrefs, hvalley.1, hvalley.2]
    · rw [hrefs]; simp
    · intro ⟨r, hr, hrv⟩
      exact absurd hrv (hall r hr)
    · intro _ r hr
      rw [hrefs] at hr
      rcases List.mem_cons.mp hr with rfl | hr
      · exact le_refl _
      · exact hrest r hr
  · -- at least one reference precedes: pstar is the nearest preceding one
    have hpre : refs.takeWhile p = pre2 ++ [pstar] := by
      rw [hpre0, List.concat_eq_append]
    clear hpre0
    have hrefs : refs = pre2 ++ pstar :: refs.dropWhile p := by
      conv_lhs => rw [← hsplit, hpre]
      simp [List.append_assoc]
    have hps_lt : pstar < v := hpre_lt pstar (by rw [hpre]; simp)
    have hpre2_lt : ∀ x ∈ pre2, x < v := by
      intro x hx; exact hpre_lt x (by rw [hpre]; simp [hx])
    have hpre2_lt_ps : ∀ x ∈ pre2, x < pstar := by
      have hsub : (refs.takeWhile p).Sorted (· < ·) :=
        hsorted.sublist (List.takeWhile_sublist p)
      rw [hpre] at hsub
      intro x hx
      exact (List.pairwise_append.mp hsub).2.2 x hx pstar (by simp)
    have ht : closestTransform refs v =
        (pre2.map (fun i => v - i)) ++ (v - pstar) :: (refs.dropWhile p) := by
      conv_lhs => rw [hrefs]
      unfold closestTransform
      rw [List.map_append, List.map_cons]
      congr 1
      · apply List.map_congr_left
        intro i hi
        simp [hpre2_lt i hi]
      · congr 1
        · simp [hps_lt]
        · have hid : ∀ i ∈ refs.dropWhile p, (if v > i then v - i else i) = id i := by
            intro i hi
            have : ¬ i < v := hsuf_ge i hi
            simp [this]
          rw [List.map_congr_left hid, List.map_id]
    have hvalley := min_index_valley (pre2.map (fun i => v - i)) (refs.dropWhile p) (v - pstar)
      (by
        intro x hx
        rcases List.mem_map.mp hx with ⟨r, hr, rfl⟩
        have h1 := hpre2_lt_ps r hr
        have h2 := hpre2_lt r hr
        omega)
      (by
        intro x hx
        have := hsuf_ge x hx
        omega)
    have hm0 : minNat (closestTransform refs v) ≠ 0 := by
      rw [ht, hvalley.1]
      omega
    have hidx : (closestTransform refs v).indexOf (minNat (closestTransform refs v)) = pre2.length := by
      rw [ht, hvalley.1, hvalley.2, List.length_map]
    refine ⟨pre2.length, pstar, ?_, ?_, ?_, ?_⟩
    · unfold closest_value
      rw [if_neg hne]
      simp only []
      rw [if_neg hm0, hidx]
    · conv_lhs => rw [hrefs]
      rw [List.getElem?_append_right (le_refl pre2.length)]
      simp
    · intro _
      refine ⟨hps_lt, ?_⟩
      intro r hr hrv
      rw [← hsplit] at hr
      rcases List.mem_append.mp hr with h | h
      · rw [hpre] at h
        rcases List.mem_append.mp h with h | h
        · exact le_of_lt (hpre2_lt_ps r h)
        · rcases List.mem_singleton.mp h with rfl
          exact le_refl _
      · exact absurd hrv (hsuf_ge r h)
    · intro hnone
      exact absurd hps_lt (hnone pstar (by rw [hrefs]; simp))

/-- Witness for C1, at the spec's concrete inputs: reference offsets
`[10, 50]` with a claim match at offset `40` (binds to the preceding
reference at `10`) and at offset `5` (no preceding reference; binds to the
nearest overall, again `10`). -/
theorem claim_C1_witness :
    (∃ idx rstar, closest_value [10, 50] 40 = some idx ∧
        ([10, 50] : List Nat)[idx]? = some rstar ∧
        ((∃ r ∈ ([10, 50] : List Nat), r < 40) →
          rstar < 40 ∧ ∀ r ∈ ([10, 50] : List Nat), r < 40 → r ≤ rstar) ∧
        ((∀ r ∈ ([10, 50] : List Nat), ¬ r < 40) →
          ∀ r ∈ ([10, 50] : List Nat), rstar ≤ r)) ∧
    (∃ idx rstar, closest_value [10, 50] 5 = some idx ∧
        ([10, 50] : List Nat)[idx]? = some rstar ∧
        ((∃ r ∈ ([10, 50] : List Nat), r < 5) →
          rstar < 5 ∧ ∀ r ∈ ([10, 50] : List Nat), r < 5 → r ≤ rstar) ∧
        ((∀ r ∈ ([10, 50] : List Nat), ¬ r < 5) →
          ∀ r ∈ ([10, 50] : List Nat), rstar ≤ r)) :=
  ⟨claim_C1 [10, 50] 40 (by decide) (by decide) (by decide),
   claim_C1 [10, 50] 5 (by decide) (by decide) (by decide)⟩

theorem replaceAllGo_fuel (pat repl : List Char) :
    ∀ (n f g : Nat) (s : List Char), s.length ≤ f → s.length ≤ g → f ≤ n →
      replaceAllGo pat repl f s = replaceAllGo pat repl g s := by
  intro n
  induction n with
  | zero =>
    intro f g s hf hg hfn
    cases s with
    | nil => cases f <;> cases g <;> rfl
    | cons c cs => simp at hf; omega
  | succ n ih =>
    intro f g s hf hg hfn
    cases s with
    | nil => cases f <;> cases g <;> rfl
    | cons c cs =>
      cases f with
      | zero => simp at hf
      | succ f =>
        cases g with
        | zero => simp at hg
        | succ g =>
          rw [replaceAllGo, replaceAllGo]
          by_cases hpre : pat ≠ [] ∧ pat.isPrefixOf (c :: cs)
          · rw [if_pos hpre, if_pos hpre]
            have hd : ((c :: cs).drop pat.length).length ≤ cs.length := by
              cases pat with
              | nil => exact absurd rfl hpre.1
              | cons p pt => simp only [List.length_drop, List.length_cons]; omega
            have hcs : cs.length ≤ f := by simp at hf; omega
            have hcsg : cs.length ≤ g := by simp at hg; omega
            rw [ih f g _ (le_trans hd hcs) (le_trans hd hcsg) (by omega)]
          · rw [if_neg hpre, if_neg hpre]
            have hcs : cs.length ≤ f := by simp at hf; omega
            have hcsg : cs.length ≤ g := by simp at hg; omega
            rw [ih f g cs hcs hcsg (by omega)]

/-- One-step unfolding of `replaceAll` on a nonempty string. -/
theorem replaceAll_cons (pat repl : List Char) (c : Char) (cs : List Char) :
    replaceAll pat repl (c :: cs) =
      if pat ≠ [] ∧ pat.isPrefixOf (c :: cs) then
        repl ++ replaceAll pat repl ((c :: cs).drop pat.length)
      else
        c :: replaceAll pat repl cs := by
  show replaceAllGo pat repl (c :: cs).length (c :: cs) = _
  have hlc : (c :: cs).length = cs.length + 1 := by simp
  rw [hlc, replaceAllGo]
  by_cases hpre : pat ≠ [] ∧ pat.isPrefixOf (c :: cs)
  · rw [if_pos hpre, if_pos hpre]
    have hd : ((c :: cs).drop pat.length).length ≤ cs.length := by
      cases pat with
      | nil => exact absurd rfl hpre.1
      | cons p pt => simp only [List.length_drop, List.length_cons]; omega
    unfold replaceAll
    rw [replaceAllGo_fuel pat repl cs.length cs.length _ _ hd (le_refl _) (le_refl _)]
  · rw [if_neg hpre, if_neg hpre]
    rfl

theorem replaceAll_nil (pat repl : List Char) : replaceAll pat repl [] = [] := rfl

/-- If the pattern occurs in `s`, `replaceAll` inserts `repl` somewhere. -/
theorem replaceAll_inserts (pat repl : List Char) (hpat : pat ≠ []) :
    ∀ (s : List Char), (∃ a b, s = a ++ pat ++ b) →
      ∃ a2 b2, replaceAll pat repl s = a2 ++ repl ++ b2 := by
  suffices H : ∀ n (s : List Char), s.length ≤ n → (∃ a b, s = a ++ pat ++ b) →
      ∃ a2 b2, replaceAll pat repl s = a2 ++ repl ++ b2 by
    exact fun s => H s.length s (le_refl _)
  intro n
  induction n with
  | zero =>
    rintro s hs ⟨a, b, rfl⟩
    cases pat with
    | nil => exact absurd rfl hpat
    | cons p pt => simp at hs
  | succ n ih =>
    rintro s hs ⟨a, b, rfl⟩
    cases a with
    | nil =>
      cases pat with
      | nil => exact absurd rfl hpat
      | cons p pt =>
        refine ⟨[], replaceAll (p :: pt) repl (((p :: pt) ++ b).drop (p :: pt).length), ?_⟩
        simp only [List.nil_append, List.cons_append]
        rw [replaceAll_cons]
        rw [if_pos ⟨hpat, by
          rw [List.isPrefixOf_iff_prefix, ← List.cons_append]
          exact List.prefix_append _ _⟩]
    | cons x a2 =>
      by_cases hpre : pat ≠ [] ∧ pat.isPrefixOf (x :: (a2 ++ pat ++ b))
      · refine ⟨[], replaceAll pat repl ((x :: (a2 ++ pat ++ b)).drop pat.length), ?_⟩
        simp only [List.cons_append, List.nil_append]
        rw [replaceAll_cons, if_pos]
        exact hpre
      · have hlen : (a2 ++ pat ++ b).length ≤ n := by
          simp only [List.cons_append, List.length_cons] at hs
          simp only [List.length_append] at *
          omega
        obtain ⟨a3, b3, hab⟩ := ih (a2 ++ pat ++ b) hlen ⟨a2, b, rfl⟩
        refine ⟨x :: a3, b3, ?_⟩
        simp only [List.cons_append]
        rw [replaceAll_cons, if_neg hpre, hab]

/-- Characters of `replaceAll`'s output come from the input or from the
replacement. -/
theorem replaceAll_subset (pat repl : List Char) :
    ∀ (s : List Char), ∀ x ∈ replaceAll pat repl s, x ∈ s ∨ x ∈ repl := by
  suffices H : ∀ n (s : List Char), s.length ≤ n →
      ∀ x ∈ replaceAll pat repl s, x ∈ s ∨ x ∈ repl by
    exact fun s => H s.length s (le_refl _)
  intro n
  induction n with
  | zero =>
    intro s hs x hx
    cases s with
    | nil => rw [replaceAll_nil] at hx; cases hx
    | cons c cs => simp at hs
  | succ n ih =>
    intro s hs x hx
    cases s with
    | nil => rw [replaceAll_nil] at hx; cases hx
    | cons c cs =>
      rw [replaceAll_cons] at hx
      by_cases hpre : pat ≠ [] ∧ pat.isPrefixOf (c :: cs)
      · rw [if_pos hpre] at hx
        rcases List.mem_append.mp hx with h | h
        · exact Or.inr h
        · have hlen : ((c :: cs).drop pat.length).length ≤ n := by
            cases pat with
            | nil => exact absurd rfl hpre.1
            | cons p pt =>
              simp only [List.length_drop, List.length_cons] at *
              omega
          rcases ih _ hlen x h with h2 | h2
          · exact Or.inl (List.mem_of_mem_drop h2)
          · exact Or.inr h2
      · rw [if_neg hpre] at hx
        rcases List.mem_cons.mp hx with rfl | h
        · exact Or.inl (List.mem_cons_self _ _)
        · have hlen : cs.length ≤ n := by simp at hs; omega
          rcases ih cs hlen x h with h2 | h2
          · exact Or.inl (List.mem_cons_of_mem _ h2)
          · exact Or.inr h2

/-- Characters of `collapseSpaces`'s output come from the input. -/
theorem collapseSpaces_subset :
    ∀ (s : List Char), ∀ x ∈ collapseSpaces s, x ∈ s := by
  intro s
  induction s using collapseSpaces.induct with
  | case1 => intro x hx; cases hx
  | case2 c => intro x hx; exact hx
  | case3 a b rest hab ih =>
    intro x hx
    rw [collapseSpaces, if_pos hab] at hx
    exact List.mem_cons_of_mem _ (ih x hx)
  | case4 a b rest hab ih =>
    intro x hx
    rw [collapseSpaces, if_neg hab] at hx
    rcases List.mem_cons.mp hx with rfl | h
    · exact List.mem_cons_self _ _
    · exact List.mem_cons_of_mem _ (ih x h)

/-- `collapseSpaces` leaves a well-spaced pattern intact when it is
followed by arbitrary text. -/
theorem collapseSpaces_append (p : List Char) (hp : SpaceSeparated p) :
    ∀ b : List Char, collapseSpaces (p ++ b) = p ++ collapseSpaces b := by
  induction p with
  | nil => intro b; simp
  | cons a p ih =>
    intro b
    cases p with
    | nil =>
      have ha : a ≠ ' ' := by
        intro h
        exact hp.1 (by simp [h])
      cases b with
      | nil => simp [collapseSpaces]
      | cons c cs =>
        simp only [List.singleton_append, List.cons_append, List.nil_append]
        rw [collapseSpaces, if_neg (fun h => ha h.1)]
    | cons a2 p2 =>
      have hchain := hp.2
      rw [noDoubleSpace] at hchain
      by_cases hd : a = ' ' ∧ a2 = ' '
      · rw [if_pos hd] at hchain
        cases hchain
      · rw [if_neg hd] at hchain
        have hp2 : SpaceSeparated (a2 :: p2) := by
          refine ⟨?_, hchain⟩
          intro h
          apply hp.1
          rw [List.getLast?_cons_cons]
          exact h
        have := ih hp2 b
        simp only [List.cons_append] at *
        rw [collapseSpaces, if_neg hd, this]

/-- `collapseSpaces` preserves a well-spaced infix pattern. -/
theorem collapseSpaces_infix (p : List Char) (hp : SpaceSeparated p) :
    ∀ (a b : List Char), ∃ a2 b2,
      collapseSpaces (a ++ p ++ b) = a2 ++ p ++ b2 := by
  intro a
  induction a with
  | nil =>
    intro b
    refine ⟨[], collapseSpaces b, ?_⟩
    simp only [List.nil_append]
    exact collapseSpaces_append p hp b
  | cons x a ih =>
    intro b
    obtain ⟨a2, b2, hab⟩ := ih b
    rcases hrest : a ++ p ++ b with _ | ⟨y, rest⟩
    · obtain ⟨h1, hb⟩ := List.append_eq_nil.mp hrest
      obtain ⟨ha, hpnil⟩ := List.append_eq_nil.mp h1
      subst ha; subst hpnil; subst hb
      exact ⟨[x], [], by simp [collapseSpaces]⟩
    · by_cases hxy : x = ' ' ∧ y = ' '
      · refine ⟨a2, b2, ?_⟩
        simp only [List.cons_append, hrest]
        rw [collapseSpaces, if_pos hxy, ← hrest, hab]
      · refine ⟨x :: a2, b2, ?_⟩
        simp only [List.cons_append, hrest]
        rw [collapseSpaces, if_neg hxy, ← hrest, hab]

theorem nl2space_append (a b : List Char) :
    nl2space (a ++ b) = nl2space a ++ nl2space b :=
  List.map_append _ a b

theorem nl2space_mem {x : Char} {s : List Char} (hx : x ∈ nl2space s) :
    x ∈ s ∨ x = ' ' := by
  rcases List.mem_map.mp hx with ⟨c, hc, rfl⟩
  by_cases h : c = Char.ofNat 10
  · right; simp [h]
  · left; simpa [h] using hc

theorem hasPlaceholder_mem_X {cs : List Char} (h : HasPlaceholder cs) :
    'X' ∈ cs := by
  obtain ⟨a, b, rfl⟩ := h
  refine List.mem_append.mpr (Or.inl (List.mem_append.mpr (Or.inr ?_)))
  decide

/-- If the replacement string starts with `", No. XXXXXX"`, the updated
citation carries the placeholder. -/
theorem citor_update_hasPlaceholder (citation matched rep : String)
    (hne : matched.data ≠ [])
    (hocc : ∃ a b, citation.data = a ++ matched.data ++ b)
    (hrep : ∃ r, rep.data = [',', ' '] ++ citePlaceholder ++ r) :
    HasPlaceholder (citor_update citation matched rep) := by
  obtain ⟨r, hr⟩ := hrep
  obtain ⟨a2, b2, h2⟩ := replaceAll_inserts matched.data rep.data hne citation.data hocc
  rw [hr] at h2
  have h3 : replaceAll matched.data rep.data citation.data =
      (a2 ++ [',', ' ']) ++ citePlaceholder ++ (r ++ b2) := by
    rw [hr, h2]; simp [List.append_assoc]
  unfold citor_update stripPatterns
  rw [h3, nl2space_append, nl2space_append]
  have hph : nl2space citePlaceholder = citePlaceholder := by decide
  rw [hph]
  have hgood : SpaceSeparated citePlaceholder := by
    constructor
    · decide
    · decide
  obtain ⟨a3, b3, h4⟩ := collapseSpaces_infix citePlaceholder hgood
    (nl2space (a2 ++ [',', ' '])) (nl2space (r ++ b2))
  exact ⟨a3, b3, h4⟩

/-- If neither the citation header nor the replacement carries a capital
`X`, the updated citation has no placeholder. -/
theorem citor_update_noPlaceholder (citation matched rep : String)
    (hcit : 'X' ∉ citation.data) (hrep : 'X' ∉ rep.data) :
    ¬ HasPlaceholder (citor_update citation matched rep) := by
  intro h
  have hx : 'X' ∈ citor_update citation matched rep := hasPlaceholder_mem_X h
  unfold citor_update stripPatterns at hx
  have h1 := collapseSpaces_subset _ _ hx
  rcases nl2space_mem h1 with h2 | h2
  · rcases replaceAll_subset _ _ _ _ h2 with h3 | h3
    · exact hcit h3
    · exact hrep h3
  · cases h2

/-- C2: for every citation header matched by the trailing Federal-court or
State-court pattern (whose delimiter class `[,-]` makes the delimiter `","`
or `"-"`), the composed citation update inserts `", No. XXXXXX"` exactly
when the delimiter is a comma; with a hyphen the replacement is
` (<court><year>)` — no placeholder, and the literal matched year rather
than the re-derived date `d`. -/
theorem claim_C2 (delimiter t n y d citation matched : String)
    (hdelim : delimiter = "," ∨ delimiter = "-")
    (hne : matched.data ≠ [])
    (hocc : ∃ a b, citation.data = a ++ matched.data ++ b) :
    (delimiter = "," →
      HasPlaceholder
        (citor_update citation matched (federal_replacement delimiter t n y d)) ∧
      HasPlaceholder
        (citor_update citation matched (state_replacement delimiter t n y d))) ∧
    (delimiter = "-" →
      federal_replacement delimiter t n y d = " (" ++ t ++ n ++ y ++ ")" ∧
      state_replacement delimiter t n y d = " (" ++ t ++ n ++ y ++ ")" ∧
      ('X' ∉ citation.data → 'X' ∉ t.data → 'X' ∉ n.data → 'X' ∉ y.data →
        ¬ HasPlaceholder
            (citor_update citation matched (federal_replacement delimiter t n y d)) ∧
        ¬ HasPlaceholder
            (citor_update citation matched (state_replacement delimiter t n y d)))) := by
  constructor
  · rintro rfl
    have hcn : case_number_of "," = ", No. XXXXXX" := by
      unfold case_number_of
      rw [if_neg (by decide)]
    have hfed : ∃ r, (federal_replacement "," t n y d).data =
        [',', ' '] ++ citePlaceholder ++ r := by
      refine ⟨(" (" ++ t ++ n ++ citor_date "," y d ++ ")").data, ?_⟩
      unfold federal_replacement
      rw [hcn]
      simp only [String.data_append, List.append_assoc]
      rfl
    have hst : ∃ r, (state_replacement "," t n y d).data =
        [',', ' '] ++ citePlaceholder ++ r := by
      refine ⟨(" (" ++ t ++ n ++ citor_date "," y d ++ ")").data, ?_⟩
      unfold state_replacement
      rw [hcn]
      simp only [String.data_append, List.append_assoc]
      rfl
    exact ⟨citor_update_hasPlaceholder _ _ _ hne hocc hfed,
           citor_update_hasPlaceholder _ _ _ hne hocc hst⟩
  · rintro rfl
    have hcn : case_number_of "-" = "" := by
      unfold case_number_of
      rw [if_pos rfl]
    have hdate : citor_date "-" y d = y := by
      unfold citor_date
      rw [if_pos rfl]
    have hfed : federal_replacement "-" t n y d = " (" ++ t ++ n ++ y ++ ")" := by
      unfold federal_replacement
      rw [hcn, hdate]
      simp [String.append_assoc]
    have hst : state_replacement "-" t n y d = " (" ++ t ++ n ++ y ++ ")" := by
      unfold state_replacement
      rw [hcn, hdate]
      simp [String.append_assoc]
    refine ⟨hfed, hst, ?_⟩
    intro hc hX1 hX2 hX3
    have hrepX : 'X' ∉ (" (" ++ t ++ n ++ y ++ ")" : String).data := by
      intro hx
      simp only [String.data_append, List.mem_append] at hx
      rcases hx with ((((hx | hx) | hx) | hx) | hx)
      · revert hx; decide
      · exact hX1 hx
      · exact hX2 hx
      · exact hX3 hx
      · revert hx; decide
    constructor
    · rw [hfed]
      exact citor_update_noPlaceholder _ _ _ hc hrepX
    · rw [hst]
      exact citor_update_noPlaceholder _ _ _ hc hrepX

/-- Witness for C2, on the concrete header
`"A v. B, Ct 2019"` with matched trailing part `", Ct 2019"`: the comma
(unpublished) branch inserts the placeholder, the hyphen (published)
branch does not and keeps the literal year. -/
theorem claim_C2_witness :
    (("," : String) = "," →
      HasPlaceholder
        (citor_update "A v. B, Ct 2019" ", Ct 2019" (federal_replacement "," "App. " "D.N.C. " "2019" "Jan. 1, 2019")) ∧
      HasPlaceholder
        (citor_update "A v. B, Ct 2019" ", Ct 2019" (state_replacement "," "App. " "D.N.C. " "2019" "Jan. 1, 2019"))) ∧
    (("," : String) = "-" →
      federal_replacement "," "App. " "D.N.C. " "2019" "Jan. 1, 2019" =
        " (" ++ "App. " ++ "D.N.C. " ++ "2019" ++ ")" ∧
      state_replacement "," "App. " "D.N.C. " "2019" "Jan. 1, 2019" =
        " (" ++ "App. " ++ "D.N.C. " ++ "2019" ++ ")" ∧
      ('X' ∉ ("A v. B, Ct 2019" : String).data → 'X' ∉ ("App. " : String).data →
       'X' ∉ ("D.N.C. " : String).data → 'X' ∉ ("2019" : String).data →
        ¬ HasPlaceholder
            (citor_update "A v. B, Ct 2019" ", Ct 2019" (federal_replacement "," "App. " "D.N.C. " "2019" "Jan. 1, 2019")) ∧
        ¬ HasPlaceholder
            (citor_update "A v. B, Ct 2019" ", Ct 2019" (state_replacement "," "App. " "D.N.C. " "2019" "Jan. 1, 2019")))) :=
  claim_C2 "," "App. " "D.N.C. " "2019" "Jan. 1, 2019" "A v. B, Ct 2019" ", Ct 2019"
    (Or.inl rfl) (by decide) ⟨("A v. B" : String).data, [], by decide⟩

theorem lookup_nil_none (k : String) :
    List.lookup k ([] : List (String × List CiteEntry)) = none := rfl

theorem lookup_upsert (acc : List (String × List CiteEntry)) (k : String)
    (v l : List CiteEntry) (h : List.lookup k acc = some l) :
    List.lookup k (upsert acc k v) = some v := by
  induction acc with
  | nil => cases h
  | cons p rest ih =>
    by_cases hk : p.1 = k
    · simp only [upsert, List.map_cons, if_pos hk, List.lookup_cons]
      simp
    · have hbeq : (k == p.1) = false := by
        simp [BEq.beq]
        exact fun hh => hk hh.symm
      simp only [upsert, List.map_cons, if_neg hk]
      rw [List.lookup_cons] at h ⊢
      rw [hbeq] at h ⊢
      exact ih h

theorem upsert_upsert (acc : List (String × List CiteEntry)) (k : String)
    (v w : List CiteEntry) :
    upsert (upsert acc k v) k w = upsert acc k w := by
  unfold upsert
  rw [List.map_map]
  apply List.map_congr_left
  intro p hp
  by_cases hk : p.1 = k
  · simp [Function.comp, hk]
  · simp [Function.comp, hk]

/-- C4 counterexample: two links to the same target id `"100"` with
different inner case names.  The entry accumulated for the first name is
discarded, not retained, when the second arrives. -/
theorem claim_C4_counterexample :
    cites_to_step (cites_to_step [] "100" (some "A") "c1") "100" (some "B") "c2" =
      [("100", [⟨some "B", ["c2"]⟩])] ∧
    ∀ p ∈ cites_to_step (cites_to_step [] "100" (some "A") "c1") "100" (some "B") "c2",
      ∀ e ∈ p.2, e.name ≠ some "A" := by
  constructor
  · rfl
  · decide

/-- C4 (amended): for a target id already bound to a nonempty entry list
`l`, processing a link `(id, nm, cit)` appends `cit` (deduplicated) to the
entries when every existing entry has the same name `nm`; if any existing
entry has a different name, the whole list for that id is replaced by the
single fresh entry — previously accumulated entries are discarded, not
retained.  In both cases re-processing the same link changes nothing. -/
theorem claim_C4 (acc : List (String × List CiteEntry)) (id_ : String)
    (nm : Option String) (cit : String) (l : List CiteEntry)
    (hl : List.lookup id_ acc = some l) (hlne : l ≠ []) :
    ((∃ el ∈ l, el.name ≠ nm) →
      List.lookup id_ (cites_to_step acc id_ nm cit) = some [⟨nm, [cit]⟩]) ∧
    ((∀ el ∈ l, el.name = nm) →
      List.lookup id_ (cites_to_step acc id_ nm cit) =
        some (l.map (fun el => if cit ∈ el.citations then el
                               else ⟨el.name, el.citations ++ [cit]⟩))) ∧
    cites_to_step (cites_to_step acc id_ nm cit) id_ nm cit =
      cites_to_step acc id_ nm cit := by
  have hacc : acc ≠ [] := by
    intro h; rw [h] at hl; cases hl
  have hstep : cites_to_step acc id_ nm cit = upsert acc id_ (citesLoop l nm cit) := by
    unfold cites_to_step
    rw [if_neg hacc, hl]
    show (if l ≠ [] then upsert acc id_ (citesLoop l nm cit)
          else upsert acc id_ [⟨nm, [cit]⟩]) = _
    rw [if_pos hlne]
  refine ⟨?_, ?_, ?_⟩
  · intro ⟨el, hel, hne⟩
    rw [hstep]
    have : citesLoop l nm cit = [⟨nm, [cit]⟩] := by
      unfold citesLoop
      rw [if_neg]
      intro hall
      exact hne (hall el hel)
    rw [this]
    exact lookup_upsert acc id_ _ l hl
  · intro hall
    rw [hstep]
    have : citesLoop l nm cit =
        l.map (fun el => if cit ∈ el.citations then el
                         else ⟨el.name, el.citations ++ [cit]⟩) := by
      unfold citesLoop
      rw [if_pos hall]
    rw [this]
    exact lookup_upsert acc id_ _ l hl
  · rw [hstep]
    have hlook : List.lookup id_ (upsert acc id_ (citesLoop l nm cit)) =
        some (citesLoop l nm cit) := lookup_upsert acc id_ _ l hl
    have hloopne : citesLoop l nm cit ≠ [] := by
      unfold citesLoop
      by_cases hall : ∀ el ∈ l, el.name = nm
      · rw [if_pos hall]
        intro h
        exact hlne (List.map_eq_nil_iff.mp h)
      · rw [if_neg hall]
        intro h; cases h
    have hupne : upsert acc id_ (citesLoop l nm cit) ≠ [] := by
      intro h
      rw [h] at hlook
      cases hlook
    unfold cites_to_step
    rw [if_neg hupne, hlook]
    show (if citesLoop l nm cit ≠ [] then
            upsert (upsert acc id_ (citesLoop l nm cit)) id_
              (citesLoop (citesLoop l nm cit) nm cit)
          else upsert (upsert acc id_ (citesLoop l nm cit)) id_ [⟨nm, [cit]⟩]) = _
    rw [if_pos hloopne]
    have hfix : citesLoop (citesLoop l nm cit) nm cit = citesLoop l nm cit := by
      unfold citesLoop
      by_cases hall : ∀ el ∈ l, el.name = nm
      · rw [if_pos hall]
        rw [if_pos (by
          intro el hel
          rcases List.mem_map.mp hel with ⟨e0, he0, rfl⟩
          by_cases hc : cit ∈ e0.citations
          · rw [if_pos hc]; exact hall e0 he0
          · rw [if_neg hc]; exact hall e0 he0)]
        have : ∀ el ∈ l.map (fun el => if cit ∈ el.citations then el
                               else ⟨el.name, el.citations ++ [cit]⟩),
            (if cit ∈ el.citations then el
             else (⟨el.name, el.citations ++ [cit]⟩ : CiteEntry)) = el := by
          intro el hel
          rcases List.mem_map.mp hel with ⟨e0, he0, rfl⟩
          by_cases hc : cit ∈ e0.citations
          · rw [if_pos hc, if_pos hc]
          · rw [if_neg hc]
            rw [if_pos (by simp)]
        rw [List.map_congr_left this]
        simp
      · rw [if_neg hall]
        rw [if_pos (by intro el hel; simp at hel; rw [hel])]
        simp
    rw [hfix, upsert_upsert]

/-- Witness for C4 (amended), on the accumulator holding one entry named
`"A"` with citation `"c1"` for target `"100"`. -/
theorem claim_C4_witness :
    ((∃ el ∈ [CiteEntry.mk (some "A") ["c1"]], el.name ≠ some "A") →
      List.lookup "100" (cites_to_step [("100", [⟨some "A", ["c1"]⟩])] "100" (some "A") "c2") =
        some [⟨some "A", ["c2"]⟩]) ∧
    ((∀ el ∈ [CiteEntry.mk (some "A") ["c1"]], el.name = some "A") →
      List.lookup "100" (cites_to_step [("100", [⟨some "A", ["c1"]⟩])] "100" (some "A") "c2") =
        some ([CiteEntry.mk (some "A") ["c1"]].map
          (fun el => if "c2" ∈ el.citations then el
                     else ⟨el.name, el.citations ++ ["c2"]⟩))) ∧
    cites_to_step (cites_to_step [("100", [⟨some "A", ["c1"]⟩])] "100" (some "A") "c2")
        "100" (some "A") "c2" =
      cites_to_step [("100", [⟨some "A", ["c1"]⟩])] "100" (some "A") "c2" :=
  claim_C4 [("100", [⟨some "A", ["c1"]⟩])] "100" (some "A") "c2"
    [⟨some "A", ["c1"]⟩] (by rfl) (by decide)

/-- C9: a document whose markup lacks the opinion root returns an empty
record and does not raise; every sibling item of a batch is processed
independently of it. -/
theorem claim_C9 {α β : Type} (parse_body : α → Except String β)
    (batch : List (GclPage α)) (i : Nat) (page : GclPage α)
    (hpage : batch[i]? = some page) (hmiss : page.opinion = none) :
    (batch.map (gcl_parse_guard parse_body))[i]? = some (Except.ok none) ∧
    ∀ j : Nat, (batch.map (gcl_parse_guard parse_body))[j]? =
      Option.map (gcl_parse_guard parse_body) batch[j]? := by
  constructor
  · rw [List.getElem?_map, hpage]
    show some (gcl_parse_guard parse_body page) = _
    unfold gcl_parse_guard
    rw [hmiss]
  · intro j
    rw [List.getElem?_map]

/-- Witness for C9: a two-item batch whose first page lacks the opinion
root, with a parse body that raises on every document. -/
theorem claim_C9_witness :
    (([⟨none⟩, ⟨some 5⟩] : List (GclPage Nat)).map
        (gcl_parse_guard (fun _ => (Except.error "boom" : Except String Nat))))[0]? =
      some (Except.ok (none : Option Nat)) ∧
    ∀ j : Nat, (([⟨none⟩, ⟨some 5⟩] : List (GclPage Nat)).map
        (gcl_parse_guard (fun _ => (Except.error "boom" : Except String Nat))))[j]? =
      Option.map (gcl_parse_guard (fun _ => (Except.error "boom" : Except String Nat)))
        ([⟨none⟩, ⟨some 5⟩] : List (GclPage Nat))[j]? :=
  claim_C9 (fun _ => (Except.error "boom" : Except String Nat)) [⟨none⟩, ⟨some 5⟩] 0 ⟨none⟩ rfl rfl

theorem pySplitGo_fuel (sep : List Char) :
    ∀ (n f g : Nat) (s : List Char), s.length ≤ f → s.length ≤ g → f ≤ n →
      pySplitGo sep f s = pySplitGo sep g s := by
  intro n
  induction n with
  | zero =>
    intro f g s hf hg hfn
    cases s with
    | nil => cases f <;> cases g <;> rfl
    | cons c cs => simp at hf; omega
  | succ n ih =>
    intro f g s hf hg hfn
    cases s with
    | nil => cases f <;> cases g <;> rfl
    | cons c cs =>
      cases f with
      | zero => simp at hf
      | succ f =>
        cases g with
        | zero => simp at hg
        | succ g =>
          rw [pySplitGo, pySplitGo]
          by_cases hpre : sep ≠ [] ∧ sep.isPrefixOf (c :: cs)
          · rw [if_pos hpre, if_pos hpre]
            have hd : ((c :: cs).drop sep.length).length ≤ cs.length := by
              cases sep with
              | nil => exact absurd rfl hpre.1
              | cons p pt => simp only [List.length_drop, List.length_cons]; omega
            have hcs : cs.length ≤ f := by simp at hf; omega
            have hcsg : cs.length ≤ g := by simp at hg; omega
            rw [ih f g _ (le_trans hd hcs) (le_trans hd hcsg) (by omega)]
          · rw [if_neg hpre, if_neg hpre]
            have hcs : cs.length ≤ f := by simp at hf; omega
            have hcsg : cs.length ≤ g := by simp at hg; omega
            rw [ih f g cs hcs hcsg (by omega)]

/-- One-step unfolding of `pySplit` on a nonempty string. -/
theorem pySplit_cons (sep : List Char) (c : Char) (cs : List Char) :
    pySplit sep (c :: cs) =
      if sep ≠ [] ∧ sep.isPrefixOf (c :: cs) then
        [] :: pySplit sep ((c :: cs).drop sep.length)
      else
        match pySplit sep cs with
        | [] => [[c]]
        | h :: t => (c :: h) :: t := by
  show pySplitGo sep (c :: cs).length (c :: cs) = _
  have hlc : (c :: cs).length = cs.length + 1 := by simp
  rw [hlc, pySplitGo]
  by_cases hpre : sep ≠ [] ∧ sep.isPrefixOf (c :: cs)
  · rw [if_pos hpre, if_pos hpre]
    have hd : ((c :: cs).drop sep.length).length ≤ cs.length := by
      cases sep with
      | nil => exact absurd rfl hpre.1
      | cons p pt => simp only [List.length_drop, List.length_cons]; omega
    unfold pySplit
    rw [pySplitGo_fuel sep cs.length cs.length _ _ hd (le_refl _) (le_refl _)]
  · rw [if_neg hpre, if_neg hpre]
    rfl

theorem pySplit_nil (sep : List Char) : pySplit sep [] = [[]] := rfl

theorem repairStep_length (l : List String) (i : Nat) :
    (repairStep l i).length = l.length := by
  unfold repairStep
  by_cases h : startsHyphen (l.getD i "")
  · rw [if_pos h]; exact List.length_set l _ _
  · rw [if_neg h]

theorem repairUpTo_succ (l : List String) (k : Nat) :
    repairUpTo l (k + 1) = repairStep (repairUpTo l k) k := by
  unfold repairUpTo
  rw [List.range_succ, List.foldl_append]
  rfl

theorem repairUpTo_length (l : List String) (k : Nat) :
    (repairUpTo l k).length = l.length := by
  induction k with
  | zero => rfl
  | succ k ih => rw [repairUpTo_succ, repairStep_length, ih]

theorem repairStep_getElem_ne (l : List String) (i j : Nat) (h : i ≠ j) :
    (repairStep l i)[j]? = l[j]? := by
  unfold repairStep
  by_cases hd : startsHyphen (l.getD i "")
  · rw [if_pos hd]
    exact List.getElem?_set_ne h
  · rw [if_neg hd]

theorem repairUpTo_untouched (l : List String) :
    ∀ k j, k ≤ j → (repairUpTo l k)[j]? = l[j]? := by
  intro k
  induction k with
  | zero => intro j _; rfl
  | succ k ih =>
    intro j hj
    rw [repairUpTo_succ, repairStep_getElem_ne _ _ _ (by omega)]
    exact ih j (by omega)

theorem repairUpTo_stable (l : List String) :
    ∀ k j, j < k → (repairUpTo l k)[j]? = (repairUpTo l (j + 1))[j]? := by
  intro k
  induction k with
  | zero => intro j hj; omega
  | succ k ih =>
    intro j hj
    by_cases hk : j < k
    · rw [repairUpTo_succ, repairStep_getElem_ne _ _ _ (by omega)]
      exact ih j hk
    · have : j = k := by omega
      subst this
      rfl

/-- C10: the repair loop prefixes a leading-hyphen fragment at index `0`
with the base number of the *last* fragment of the (original) list, and a
leading-hyphen fragment at index `i > 0` with the base number of the
already-repaired immediate predecessor; other fragments are unchanged. -/
theorem claim_C10 (l : List String) (i : Nat) (d : String)
    (hd : l[i]? = some d) :
    (repairHyphens l).length = l.length ∧
    (¬ startsHyphen d → (repairHyphens l)[i]? = some d) ∧
    (startsHyphen d → i = 0 → ∀ last, l[l.length - 1]? = some last →
      (repairHyphens l)[0]? = some (baseOf last ++ d)) ∧
    (startsHyphen d → 0 < i → ∃ prev,
      (repairHyphens l)[i - 1]? = some prev ∧
      (repairHyphens l)[i]? = some (baseOf prev ++ d)) := by
  have hlen : i < l.length := by
    by_contra h
    rw [List.getElem?_eq_none (by omega)] at hd
    cases hd
  have hstable : (repairHyphens l)[i]? = (repairUpTo l (i + 1))[i]? := by
    unfold repairHyphens
    exact repairUpTo_stable l l.length i hlen
  have hFi : (repairUpTo l i)[i]? = some d := by
    rw [repairUpTo_untouched l i i (le_refl i)]
    exact hd
  have hFid : (repairUpTo l i).getD i "" = d := by
    rw [List.getD_eq_getElem?_getD, hFi]
    rfl
  refine ⟨by unfold repairHyphens; exact repairUpTo_length l _, ?_, ?_, ?_⟩
  · intro hnot
    rw [hstable, repairUpTo_succ]
    unfold repairStep
    rw [hFid, if_neg hnot, hFi]
  · intro hyes hi0 last hlast
    subst hi0
    rw [hstable, repairUpTo_succ]
    have h0 : repairUpTo l 0 = l := rfl
    rw [h0]
    unfold repairStep
    simp only [List.getD_eq_getElem?_getD]
    rw [hd]
    simp only [Option.getD_some]
    rw [if_pos hyes]
    simp only [if_true]
    rw [hlast]
    simp only [Option.getD_some]
    exact List.getElem?_set_self (by omega)
  · intro hyes hipos
    refine ⟨(repairUpTo l i).getD (i - 1) "", ?_, ?_⟩
    · have h1 : (repairHyphens l)[i - 1]? = (repairUpTo l i)[i - 1]? := by
        unfold repairHyphens
        rw [repairUpTo_stable l l.length (i - 1) (by omega)]
        have : i - 1 + 1 = i := by omega
        rw [this]
      rw [h1]
      have h2 : i - 1 < (repairUpTo l i).length := by
        rw [repairUpTo_length]; omega
      rw [List.getD_eq_getElem?_getD, List.getElem?_eq_getElem h2]
      rfl
    · rw [hstable, repairUpTo_succ]
      unfold repairStep
      rw [hFid, if_pos hyes, if_neg (by omega)]
      rw [List.getElem?_set_self (by rw [repairUpTo_length]; omega)]

/-- Witness for C10, on the fragment list `["-111", "22-333"]`: the first
fragment is repaired from the base of the last one. -/
theorem claim_C10_witness :
    (repairHyphens ["-111", "22-333"]).length = (["-111", "22-333"] : List String).length ∧
    (¬ startsHyphen "-111" → (repairHyphens ["-111", "22-333"])[0]? = some "-111") ∧
    (startsHyphen "-111" → 0 = 0 →
      ∀ last, (["-111", "22-333"] : List String)[(["-111", "22-333"] : List String).length - 1]? = some last →
      (repairHyphens ["-111", "22-333"])[0]? = some (baseOf last ++ "-111")) ∧
    (startsHyphen "-111" → 0 < 0 → ∃ prev,
      (repairHyphens ["-111", "22-333"])[0 - 1]? = some prev ∧
      (repairHyphens ["-111", "22-333"])[0]? = some (baseOf prev ++ "-111")) :=
  claim_C10 ["-111", "22-333"] 0 "-111" rfl

/-- C6, evaluated at the failing input: an opinion with two `<small>`
elements whose footnotes live in the last one.  The detached footnote
paragraphs are re-appended to the *first* `<small>`, so the footnote list
subsequently extracted (from the last `<small>`) is empty rather than
identical to the original; the inline substitution itself works. -/
theorem claim_C6_bug :
    extract_footnotes
        ((gcl_footnote_phase ⟨[[], [⟨"1", "Note text"⟩]], "body @@@@1 end"⟩).1) = [] ∧
    extract_footnotes ⟨[[], [⟨"1", "Note text"⟩]], "body @@@@1 end"⟩ =
      [("1", "Note text")] ∧
    (gcl_footnote_phase ⟨[[], [⟨"1", "Note text"⟩]], "body @@@@1 end"⟩).1.smalls =
      [[⟨"1", "Note text"⟩], []] ∧
    (gcl_footnote_phase ⟨[[], [⟨"1", "Note text"⟩]], "body @@@@1 end"⟩).2 =
      "body Note text end" := by
  refine ⟨rfl, rfl, rfl, ?_⟩
  decide

theorem subAllGo_fuel (re : RE) (repl : List Char) :
    ∀ (n f g : Nat) (s : List Char), s.length ≤ f → s.length ≤ g → f ≤ n →
      subAllGo re repl f s = subAllGo re repl g s := by
  intro n
  induction n with
  | zero =>
    intro f g s hf hg hfn
    cases s with
    | nil => cases f <;> cases g <;> rfl
    | cons c cs => simp at hf; omega
  | succ n ih =>
    intro f g s hf hg hfn
    cases s with
    | nil => cases f <;> cases g <;> rfl
    | cons c cs =>
      cases f with
      | zero => simp at hf
      | succ f =>
        cases g with
        | zero => simp at hg
        | succ g =>
          rw [subAllGo, subAllGo]
          have hcs : cs.length ≤ f := by simp at hf; omega
          have hcsg : cs.length ≤ g := by simp at hg; omega
          cases hm : (matchRE re (c :: cs)).head? with
          | none => simp only [hm]; rw [ih f g cs hcs hcsg (by omega)]
          | some rest =>
            simp only [hm]
            by_cases hr : rest.length < cs.length + 1
            · rw [if_pos hr, if_pos hr,
                ih f g rest (by omega) (by omega) (by omega)]
            · rw [if_neg hr, if_neg hr, ih f g cs hcs hcsg (by omega)]

/-- One-step unfolding of `subAll` on a nonempty string. -/
theorem subAll_cons (re : RE) (repl : List Char) (c : Char) (cs : List Char) :
    subAll re repl (c :: cs) =
      match (matchRE re (c :: cs)).head? with
      | some rest =>
        if rest.length < cs.length + 1 then repl ++ subAll re repl rest
        else c :: subAll re repl cs
      | none => c :: subAll re repl cs := by
  show subAllGo re repl (c :: cs).length (c :: cs) = _
  have hlc : (c :: cs).length = cs.length + 1 := by simp
  rw [hlc, subAllGo]
  cases hm : (matchRE re (c :: cs)).head? with
  | none => simp only [hm]; rfl
  | some rest =>
    simp only [hm]
    by_cases hr : rest.length < cs.length + 1
    · rw [if_pos hr, if_pos hr]
      unfold subAll
      rw [subAllGo_fuel re repl cs.length cs.length rest.length rest (by omega) (le_refl _) (le_refl _)]
    · rw [if_neg hr, if_neg hr]; rfl

theorem subAll_nil (re : RE) (repl : List Char) : subAll re repl [] = [] := rfl

/-- C3, evaluated at the failing input: a text with one candidate patent
number, no reference token anywhere and no occurrence of
"patents-in-suit".  The `elif` keeps all candidates (deduplicated,
US-prefixed) anyway, because it tests the truthiness of the `re.sub`
result rather than the phrase's presence; with reference tokens present,
the trailing-three-digit filter works as claimed. -/
theorem claim_C3_bug :
    gcl_get_patents_filter (fun n => n) [" 4,566,345"] [] "Some opinion text." =
      ["US4566345"] ∧
    phrase_occurs "Some opinion text." = false ∧
    phrase_sub_result "Some opinion text." = ("Some opinion text." : String).data ∧
    gcl_get_patents_filter (fun n => n) [" 4,566,345", " 1,234,999"] ["345"] "x" =
      ["US4566345"] := by
  refine ⟨?_, ?_, ?_, ?_⟩ <;> decide

theorem nearestPrec_cons (row : ClaimRow) (rows2 : List ClaimRow) (i lin : Nat) :
    nearestPrecedingIndependent (row :: rows2) (i + 1) lin =
      nearestPrecedingIndependent rows2 i
        (if row.dependent_on = none then row.claim_number else lin) := by
  unfold nearestPrecedingIndependent
  rw [List.take_succ_cons, List.filter_cons]
  by_cases hdep : row.dependent_on = none
  · rw [if_pos (by simp [hdep])]
    cases hL : (rows2.take i).filter (fun r => decide (r.dependent_on = none)) with
    | nil => simp [hdep]
    | cons h t =>
      have hne : h :: t ≠ [] := by simp
      rw [List.getLast?_eq_getLast _ hne, List.getLast?_cons_cons,
        List.getLast?_eq_getLast _ hne]
      simp
  · rw [if_neg (by simp [hdep])]
    rw [if_neg hdep]

theorem patent_claims_go_spec :
    ∀ (ts : List ClaimTag) (lin ex : Nat) (rows : List ClaimRow),
      gcl_patent_claims_go lin ex ts = some rows →
      rows.length = ts.length ∧
      ∀ i ti ri, ts[i]? = some ti → rows[i]? = some ri →
        ((ri.dependent_on = none ↔ ti.dependent = false) ∧
         (ti.dependent = true →
           ri.dependent_on = some (nearestPrecedingIndependent rows i lin))) := by
  intro ts
  induction ts with
  | nil =>
    intro lin ex rows h
    cases h
    exact ⟨rfl, by intro i ti ri hti; cases hti⟩
  | cons t ts ih =>
    intro lin ex rows h
    unfold gcl_patent_claims_go at h
    cases hb : tagBase t with
    | none => rw [hb] at h; cases h
    | some b =>
      rw [hb] at h
      simp only [Option.map_eq_some'] at h
      obtain ⟨rows2, hgo, hrows⟩ := h
      subst hrows
      obtain ⟨hlen, hspec⟩ := ih _ _ _ hgo
      constructor
      · simp [hlen]
      · intro i ti ri hti hri
        cases i with
        | zero =>
          simp only [List.getElem?_cons_zero, Option.some_inj] at hti hri
          subst hti; subst hri
          constructor
          · by_cases hd : t.dependent
            · simp [hd]
            · simp [hd]
          · intro hd
            simp only [hd, if_pos]
            unfold nearestPrecedingIndependent
            simp
        | succ i =>
          rw [List.getElem?_cons_succ] at hti hri
          obtain ⟨hiff, hdep⟩ := hspec i ti ri hti hri
          refine ⟨hiff, ?_⟩
          intro hd
          rw [hdep hd, nearestPrec_cons]
          congr 2
          by_cases hdp : t.dependent
          · simp [hdp]
          · simp [hdp]

theorem patent_claims_go_head (t : ClaimTag) (ts : List ClaimTag)
    (lin ex : Nat) (rows : List ClaimRow)
    (h : gcl_patent_claims_go lin ex (t :: ts) = some rows) :
    ∃ b rows2, tagBase t = some b ∧
      rows = (⟨b + (if t.num.data.contains '-' then ex + 1 else ex), t.context,
               if t.dependent then some lin else none⟩ : ClaimRow) :: rows2 ∧
      gcl_patent_claims_go
        (if t.dependent then lin
         else b + (if t.num.data.contains '-' then ex + 1 else ex))
        (if t.num.data.contains '-' then ex + 1 else ex) ts = some rows2 := by
  unfold gcl_patent_claims_go at h
  cases hb : tagBase t with
  | none => rw [hb] at h; cases h
  | some b =>
    rw [hb] at h
    simp only [Option.map_eq_some'] at h
    obtain ⟨rows2, hgo, hrows⟩ := h
    exact ⟨b, rows2, rfl, hrows.symm, hgo⟩

theorem patent_claims_go_mono :
    ∀ (ts : List ClaimTag) (lin ex : Nat) (rows : List ClaimRow),
      gcl_patent_claims_go lin ex ts = some rows →
      List.Chain' (· < ·) (ts.filterMap tagBase) →
      List.Chain' (· < ·) (rows.map (fun r => r.claim_number)) := by
  intro ts
  induction ts with
  | nil =>
    intro lin ex rows h _
    cases h
    exact List.chain'_nil
  | cons t ts ih =>
    intro lin ex rows h hchain
    obtain ⟨b, rows2, hb, hrows, hgo⟩ := patent_claims_go_head t ts lin ex rows h
    subst hrows
    have hfm : (t :: ts).filterMap tagBase = b :: ts.filterMap tagBase := by
      rw [List.filterMap_cons, hb]
    rw [hfm] at hchain
    rw [List.chain'_cons'] at hchain
    have htail := ih _ _ _ hgo hchain.2
    rw [List.map_cons, List.chain'_cons']
    refine ⟨?_, htail⟩
    intro y hy
    cases ts with
    | nil =>
      cases hgo
      cases hy
    | cons t2 ts2 =>
      obtain ⟨b2, rows3, hb2, hrows2, _⟩ :=
        patent_claims_go_head t2 ts2 _ _ rows2 hgo
      subst hrows2
      simp only [List.map_cons, List.head?_cons, Option.mem_def, Option.some_inj] at hy
      subst hy
      have hbb : b < b2 := by
        apply hchain.1
        rw [List.filterMap_cons, hb2]
        rfl
      by_cases h1 : '-' ∈ t.num.data <;> by_cases h2 : '-' ∈ t2.num.data <;>
        simp [List.contains, h1, h2] <;> omega

/-- C8: in every claims table built by `gcl_patent_data` (all displayed
numbers parse, and their corrected bases strictly increase in document
order, the well-formedness the invariant presupposes), a row is marked
independent exactly when its element is not flagged dependent; every
dependent row's `dependent_on` is the claim number of the nearest
preceding non-dependent row (the loop's anchor `1` only when none
precedes); and the corrected claim numbers are strictly increasing in
document order. -/
theorem claim_C8 (tags : List ClaimTag) (rows : List ClaimRow)
    (hbuild : gcl_patent_claims tags = some rows)
    (hmono : List.Chain' (· < ·) (tags.filterMap tagBase)) :
    rows.length = tags.length ∧
    (∀ i ti ri, tags[i]? = some ti → rows[i]? = some ri →
      ((ri.dependent_on = none ↔ ti.dependent = false) ∧
       (ti.dependent = true →
         ri.dependent_on = some (nearestPrecedingIndependent rows i 1) ∧
         ((∃ j, j < i ∧ ∃ rj, rows[j]? = some rj ∧ rj.dependent_on = none) →
           ∃ rj, ((rows.take i).filter (fun r => r.dependent_on = none)).getLast? = some rj ∧
             ri.dependent_on = some rj.claim_number)))) ∧
    List.Chain' (· < ·) (rows.map (fun r => r.claim_number)) := by
  obtain ⟨hlen, hspec⟩ := patent_claims_go_spec tags 1 0 rows hbuild
  refine ⟨hlen, ?_, patent_claims_go_mono tags 1 0 rows hbuild hmono⟩
  intro i ti ri hti hri
  obtain ⟨hiff, hdep⟩ := hspec i ti ri hti hri
  refine ⟨hiff, ?_⟩
  intro hd
  refine ⟨hdep hd, ?_⟩
  rintro ⟨j, hji, rj, hrj, hrjdep⟩
  have hjmem : rj ∈ (rows.take i).filter (fun r => decide (r.dependent_on = none)) := by
    apply List.mem_filter.mpr
    constructor
    · apply List.getElem?_mem (n := j)
      rw [List.getElem?_take_of_lt hji]
      exact hrj
    · simp [hrjdep]
  have hfne : (rows.take i).filter (fun r => decide (r.dependent_on = none)) ≠ [] :=
    List.ne_nil_of_mem hjmem
  refine ⟨_, List.getLast?_eq_getLast _ hfne, ?_⟩
  rw [hdep hd]
  unfold nearestPrecedingIndependent
  rw [List.getLast?_eq_getLast _ hfne]
  rfl

/-- Witness for C8: four claim elements, the third using design-patent
range notation `3-4` (so later numbers shift by the correction offset). -/
theorem claim_C8_witness :
    ([⟨1, "c1", none⟩, ⟨2, "c2", some 1⟩, ⟨4, "c3", some 1⟩,
        ⟨6, "c5", none⟩] : List ClaimRow).length =
      ([⟨"1", false, "c1"⟩, ⟨"2", true, "c2"⟩, ⟨"3-4", true, "c3"⟩,
        ⟨"5", false, "c5"⟩] : List ClaimTag).length ∧
    (⟨4, "c3", some 1⟩ : ClaimRow).dependent_on =
      some (nearestPrecedingIndependent
        [⟨1, "c1", none⟩, ⟨2, "c2", some 1⟩, ⟨4, "c3", some 1⟩, ⟨6, "c5", none⟩] 2 1) ∧
    List.Chain' (· < ·)
      (([⟨1, "c1", none⟩, ⟨2, "c2", some 1⟩, ⟨4, "c3", some 1⟩,
        ⟨6, "c5", none⟩] : List ClaimRow).map (fun r => r.claim_number)) := by
  have hrows : gcl_patent_claims
      [⟨"1", false, "c1"⟩, ⟨"2", true, "c2"⟩, ⟨"3-4", true, "c3"⟩, ⟨"5", false, "c5"⟩] =
      some [⟨1, "c1", none⟩, ⟨2, "c2", some 1⟩, ⟨4, "c3", some 1⟩, ⟨6, "c5", none⟩] := by
    decide
  have hfm : List.filterMap tagBase
      [⟨"1", false, "c1"⟩, ⟨"2", true, "c2"⟩, ⟨"3-4", true, "c3"⟩, ⟨"5", false, "c5"⟩] =
      [1, 2, 3, 5] := by decide
  have happ := claim_C8
    [⟨"1", false, "c1"⟩, ⟨"2", true, "c2"⟩, ⟨"3-4", true, "c3"⟩, ⟨"5", false, "c5"⟩]
    [⟨1, "c1", none⟩, ⟨2, "c2", some 1⟩, ⟨4, "c3", some 1⟩, ⟨6, "c5", none⟩]
    hrows (by
      rw [hfm]
      exact List.chain'_cons.mpr ⟨by omega, List.chain'_cons.mpr ⟨by omega,
        List.chain'_cons.mpr ⟨by omega, List.chain'_singleton _⟩⟩⟩)
  refine ⟨happ.1, ?_, happ.2.2⟩
  exact ((happ.2.1 2 ⟨"3-4", true, "c3"⟩ ⟨4, "c3", some 1⟩ rfl rfl).2 rfl).1

theorem natToStrGo_fuel : ∀ (n f g : Nat), n < f → n < g →
    natToStrGo f n = natToStrGo g n := by
  intro n
  induction n using Nat.strong_induction_on with
  | _ n ih =>
    intro f g hf hg
    cases f with
    | zero => omega
    | succ f =>
      cases g with
      | zero => omega
      | succ g =>
        rw [natToStrGo, natToStrGo]
        by_cases h10 : n < 10
        · rw [if_pos h10, if_pos h10]
        · rw [if_neg h10, if_neg h10]
          have hdiv : n / 10 < n := Nat.div_lt_self (by omega) (by omega)
          rw [ih (n / 10) hdiv f g (by omega) (by omega)]

theorem natToStr_unfold (n : Nat) :
    natToStr n = if n < 10 then [digitChar n] else natToStr (n / 10) ++ [digitChar (n % 10)] := by
  unfold natToStr
  rw [natToStrGo]
  by_cases h10 : n < 10
  · rw [if_pos h10, if_pos h10]
  · rw [if_neg h10, if_neg h10]
    have hdiv : n / 10 < n := Nat.div_lt_self (by omega) (by omega)
    rw [natToStrGo_fuel (n / 10) n (n / 10 + 1) (by omega) (by omega)]

theorem digitChar_isDigit (d : Nat) (h : d < 10) : (digitChar d).isDigit = true := by
  interval_cases d <;> decide

theorem digitChar_val (d : Nat) (h : d < 10) : (digitChar d).toNat - 48 = d := by
  interval_cases d <;> decide

theorem isDigit_ne_special (c : Char) (h : c.isDigit = true) :
    c ≠ '-' ∧ c ≠ ' ' ∧ c ≠ ',' := by
  refine ⟨?_, ?_, ?_⟩ <;> rintro rfl <;> simp [Char.isDigit] at h

theorem natToStr_ne_nil (n : Nat) : natToStr n ≠ [] := by
  rw [natToStr_unfold]
  split_ifs <;> simp

theorem natToStr_all_digit (n : Nat) : ∀ c ∈ natToStr n, c.isDigit = true := by
  induction n using Nat.strong_induction_on with
  | _ n ih =>
    intro c hc
    rw [natToStr_unfold] at hc
    by_cases h10 : n < 10
    · rw [if_pos h10] at hc
      simp at hc
      exact hc ▸ digitChar_isDigit n h10
    · rw [if_neg h10] at hc
      rcases List.mem_append.mp hc with h | h
      · exact ih (n / 10) (Nat.div_lt_self (by omega) (by omega)) c h
      · simp at h
        exact h ▸ digitChar_isDigit (n % 10) (Nat.mod_lt _ (by omega))

theorem digitsVal_append_single (l : List Char) (c : Char) :
    digitsVal (l ++ [c]) = 10 * digitsVal l + (c.toNat - 48) := by
  unfold digitsVal
  rw [List.foldl_append]
  rfl

theorem digitsVal_natToStr (n : Nat) : digitsVal (natToStr n) = n := by
  induction n using Nat.strong_induction_on with
  | _ n ih =>
    rw [natToStr_unfold]
    by_cases h10 : n < 10
    · rw [if_pos h10]
      show 10 * 0 + ((digitChar n).toNat - 48) = n
      rw [digitChar_val n h10]
      omega
    · rw [if_neg h10, digitsVal_append_single,
        ih (n / 10) (Nat.div_lt_self (by omega) (by omega)),
        digitChar_val (n % 10) (Nat.mod_lt _ (by omega))]
      omega

theorem parseNat_natToStr (n : Nat) : parseNatDigits (natToStr n) = some n := by
  unfold parseNatDigits
  rw [if_pos ⟨natToStr_ne_nil n, List.all_eq_true.mpr (natToStr_all_digit n)⟩,
    digitsVal_natToStr]

theorem canon_val_inj (a b : String) (ha : CanonNum a) (hb : CanonNum b)
    (h : digitsVal a.data = digitsVal b.data) : a = b := by
  obtain ⟨m, hm⟩ := ha
  obtain ⟨k, hk⟩ := hb
  rw [hm, hk, digitsVal_natToStr, digitsVal_natToStr] at h
  subst h
  cases a
  cases b
  simp only at hm hk
  rw [hm, hk]

theorem hasRange_false_of_no_hyphen : ∀ (l : List Char), (∀ c ∈ l, c ≠ '-') →
    hasRangeTriple l = false := by
  intro l
  induction l with
  | nil => intro _; rfl
  | cons a t ih =>
    intro h
    cases t with
    | nil => rfl
    | cons b t2 =>
      cases t2 with
      | nil => rfl
      | cons c r =>
        rw [hasRangeTriple]
        have hb : (b == '-') = false :=
          beq_eq_false_iff_ne.mpr (h b (by simp))
        rw [hb]
        simp only [Bool.and_false, Bool.false_and, Bool.false_or]
        exact ih (fun x hx => h x (List.mem_cons_of_mem a hx))

theorem hasRange_cons_of (x : Char) (l : List Char) (h : hasRangeTriple l = true) :
    hasRangeTriple (x :: l) = true := by
  cases l with
  | nil => exact absurd h (by simp [hasRangeTriple])
  | cons b t =>
    cases t with
    | nil => exact absurd h (by simp [hasRangeTriple])
    | cons c r =>
      rw [hasRangeTriple, h]
      simp

theorem hasRange_append_left (l m : List Char) (h : hasRangeTriple m = true) :
    hasRangeTriple (l ++ m) = true := by
  induction l with
  | nil => exact h
  | cons x xs ih => exact hasRange_cons_of x (xs ++ m) ih

theorem hasRange_triple_base (d e : Char) (r : List Char)
    (hd : d.isDigit = true) (he : e.isDigit = true) :
    hasRangeTriple (d :: '-' :: e :: r) = true := by
  rw [hasRangeTriple, hd, he]
  simp

theorem pySplitGo_ne_nil (sep : List Char) : ∀ (f : Nat) (s : List Char),
    pySplitGo sep f s ≠ [] := by
  intro f
  induction f with
  | zero => intro s; cases s <;> simp [pySplitGo]
  | succ f ih =>
    intro s
    cases s with
    | nil => simp [pySplitGo]
    | cons c cs =>
      rw [pySplitGo]
      split_ifs
      · simp
      · cases h : pySplitGo sep f cs <;> simp

theorem pySplit_ne_nil (sep s : List Char) : pySplit sep s ≠ [] :=
  pySplitGo_ne_nil sep s.length s

theorem pySplit_no_sep_head (sep : List Char) (c : Char) (hc : sep.head? = some c) :
    ∀ (l : List Char), c ∉ l → pySplit sep l = [l] := by
  intro l
  induction l with
  | nil => intro _; rfl
  | cons x xs ih =>
    intro h
    rw [pySplit_cons]
    obtain ⟨sep', rfl⟩ : ∃ sep', sep = c :: sep' := by
      cases sep with
      | nil => simp at hc
      | cons a t =>
        simp only [List.head?_cons, Option.some_inj] at hc
        exact ⟨t, by rw [hc]⟩
    have hpre : (c :: sep').isPrefixOf (x :: xs) = false := by
      simp only [List.isPrefixOf]
      have : (c == x) = false := beq_eq_false_iff_ne.mpr (fun he => h (he ▸ List.mem_cons_self _ _))
      rw [this]
      simp
    rw [if_neg (by simp [hpre])]
    rw [ih (fun hx => h (List.mem_cons_of_mem x hx))]

theorem pySplit_single_split (c : Char) (l₂ : List Char) :
    ∀ (l₁ : List Char), c ∉ l₁ →
      pySplit [c] (l₁ ++ c :: l₂) = l₁ :: pySplit [c] l₂ := by
  intro l₁
  induction l₁ with
  | nil =>
    intro _
    rw [List.nil_append, pySplit_cons,
      if_pos ⟨by simp, by simp [List.isPrefixOf]⟩]
    simp
  | cons x xs ih =>
    intro h
    rw [List.cons_append, pySplit_cons]
    have hpre : ([c].isPrefixOf (x :: (xs ++ c :: l₂))) = false := by
      simp only [List.isPrefixOf]
      have : (c == x) = false := beq_eq_false_iff_ne.mpr (fun he => h (he ▸ List.mem_cons_self _ _))
      rw [this]
      simp
    rw [if_neg (by simp [hpre])]
    rw [ih (fun hx => h (List.mem_cons_of_mem x hx))]

theorem joinSpace_roundtrip : ∀ (L : List (List Char)), L ≠ [] →
    (∀ t ∈ L, ' ' ∉ t) → pySplit [' '] (joinSpace L) = L := by
  intro L
  induction L with
  | nil => intro h; exact absurd rfl h
  | cons x xs ih =>
    intro _ hfree
    cases xs with
    | nil =>
      show pySplit [' '] x = [x]
      exact pySplit_no_sep_head [' '] ' ' rfl x (hfree x (by simp))
    | cons y ys =>
      show pySplit [' '] (x ++ ' ' :: joinSpace (y :: ys)) = x :: y :: ys
      rw [pySplit_single_split ' ' (joinSpace (y :: ys)) x (hfree x (by simp))]
      rw [ih (by simp) (fun t ht => hfree t (List.mem_cons_of_mem x ht))]

theorem natToStr_concat (n : Nat) :
    ∃ A d, natToStr n = A ++ [d] ∧ d.isDigit = true := by
  rw [natToStr_unfold]
  by_cases h10 : n < 10
  · exact ⟨[], digitChar n, by rw [if_pos h10]; rfl, digitChar_isDigit n h10⟩
  · exact ⟨natToStr (n / 10), digitChar (n % 10), by rw [if_neg h10],
      digitChar_isDigit (n % 10) (Nat.mod_lt _ (by omega))⟩

theorem natToStr_head (n : Nat) :
    ∃ e B, natToStr n = e :: B ∧ e.isDigit = true := by
  cases h : natToStr n with
  | nil => exact absurd h (natToStr_ne_nil n)
  | cons e B =>
    exact ⟨e, B, rfl, natToStr_all_digit n e (h ▸ List.mem_cons_self _ _)⟩

theorem hyphen_not_mem_natToStr (n : Nat) : '-' ∉ natToStr n := by
  intro h
  have := natToStr_all_digit n '-' h
  simp [Char.isDigit] at this

theorem comma_not_mem_natToStr (n : Nat) : ',' ∉ natToStr n := by
  intro h
  have := natToStr_all_digit n ',' h
  simp [Char.isDigit] at this

theorem space_not_mem_natToStr (n : Nat) : ' ' ∉ natToStr n := by
  intro h
  have := natToStr_all_digit n ' ' h
  simp [Char.isDigit] at this

theorem omapM_eq_some_map {α β : Type} (f : α → Option β) (g : α → β) :
    ∀ (l : List α), (∀ x ∈ l, f x = some (g x)) → omapM f l = some (l.map g) := by
  intro l
  induction l with
  | nil => intro _; rfl
  | cons x xs ih =>
    intro h
    rw [List.map_cons, omapM, h x (by simp), ih (fun y hy => h y (List.mem_cons_of_mem x hy))]
    rfl

theorem tokExpand_plain (n : Nat) : tokExpandM (natToStr n) = some [natToStr n] := by
  have hfalse : hasRangeTriple (natToStr n) = false :=
    hasRange_false_of_no_hyphen (natToStr n)
      (fun c hc => (isDigit_ne_special c (natToStr_all_digit n c hc)).1)
  rw [tokExpandM, hfalse]
  simp only [Bool.false_eq_true, if_false, Option.some_inj, List.cons.injEq, and_true]
  refine List.filter_eq_self.mpr ?_
  intro c hc
  have := (isDigit_ne_special c (natToStr_all_digit n c hc)).1
  simpa [bne] using this

theorem tokExpand_range (a b : Nat) :
    tokExpandM (natToStr a ++ '-' :: natToStr b) =
      some ((List.range' a (b + 1 - a)).map natToStr) := by
  obtain ⟨A, d, hA, hd⟩ := natToStr_concat a
  obtain ⟨e, B, hB, he⟩ := natToStr_head b
  have htrue : hasRangeTriple (natToStr a ++ '-' :: natToStr b) = true := by
    rw [hA, hB]
    have : A ++ [d] ++ '-' :: e :: B = A ++ (d :: '-' :: e :: B) := by simp
    rw [this]
    exact hasRange_append_left A _ (hasRange_triple_base d e B hd he)
  rw [tokExpandM, htrue]
  simp only [if_true]
  have hcomma : ',' ∉ natToStr a ++ '-' :: natToStr b := by
    intro hmem
    rcases List.mem_append.mp hmem with h | h
    · exact comma_not_mem_natToStr a h
    · rcases h with _ | h
      · exact comma_not_mem_natToStr b (by assumption)
  rw [pySplit_no_sep_head [',', ' '] ',' rfl _ hcomma]
  simp only [omapM]
  rw [pySplit_single_split '-' (natToStr b) (natToStr a) (hyphen_not_mem_natToStr a),
    pySplit_no_sep_head ['-'] '-' rfl (natToStr b) (hyphen_not_mem_natToStr b)]
  rw [show omapM parseNatDigits [natToStr a, natToStr b] = some [a, b] by
    rw [omapM, parseNat_natToStr, omapM, parseNat_natToStr, omapM]; rfl]
  simp [List.getLast?_cons_cons]

/-- Every well-formed token expands successfully, to a nonempty list of
canonical numerals. -/
theorem tokExpandM_wf (tok : List Char) (h : TokenWF tok) :
    ∃ L, tokExpandM tok = some L ∧ (∀ e ∈ L, ∃ n, e = natToStr n) ∧ L ≠ [] := by
  rcases h with ⟨n, rfl⟩ | ⟨a, b, hab, rfl⟩
  · exact ⟨[natToStr n], tokExpand_plain n, by
      intro e he
      simp at he
      exact ⟨n, he⟩, by simp⟩
  · refine ⟨(List.range' a (b + 1 - a)).map natToStr, tokExpand_range a b, ?_, ?_⟩
    · intro e he
      obtain ⟨m, _, hm⟩ := List.mem_map.mp he
      exact ⟨m, hm.symm⟩
    · simp only [ne_eq, List.map_eq_nil_iff, List.range'_eq_nil]
      omega

theorem pieceF_canon (s : String) (h : ValueWF s) : ∀ e ∈ pieceF s, CanonNum e := by
  intro e he
  unfold pieceF at he
  obtain ⟨t, ht, rfl⟩ := List.mem_map.mp he
  obtain ⟨l, hl, htl⟩ := List.mem_flatten.mp ht
  obtain ⟨tok, htok, rfl⟩ := List.mem_map.mp hl
  obtain ⟨L, hL, hcanon, _⟩ := tokExpandM_wf tok (h tok htok)
  rw [hL] at htl
  obtain ⟨n, rfl⟩ := hcanon t htl
  exact ⟨n, rfl⟩

theorem piece_of_wf (s : String) (h : ValueWF s) :
    (hyphen_to_numbers s).map (fun h2 => (pySplit [' '] h2.data).map String.mk) =
      some (pieceF s) := by
  have homap : omapM tokExpandM ((pySplit [' '] s.data).map strip_edge_hyphens) =
      some (((pySplit [' '] s.data).map strip_edge_hyphens).map
        (fun tok => (tokExpandM tok).getD [])) := by
    refine omapM_eq_some_map _ _ _ ?_
    intro tok htok
    obtain ⟨L, hL, _, _⟩ := tokExpandM_wf tok (h tok htok)
    rw [hL]
    rfl
  rw [hyphen_to_numbers, homap]
  have hround : pySplit [' ']
      (joinSpace (((pySplit [' '] s.data).map strip_edge_hyphens).map
        (fun tok => (tokExpandM tok).getD [])).flatten) =
      (((pySplit [' '] s.data).map strip_edge_hyphens).map
        (fun tok => (tokExpandM tok).getD [])).flatten := by
    refine joinSpace_roundtrip _ ?_ ?_
    · cases htoks : (pySplit [' '] s.data).map strip_edge_hyphens with
      | nil =>
        exact absurd (List.map_eq_nil_iff.mp htoks) (pySplit_ne_nil [' '] s.data)
      | cons t ts =>
        obtain ⟨L, hL, _, hne⟩ := tokExpandM_wf t (h t (htoks ▸ List.mem_cons_self _ _))
        simp only [List.map_cons, List.flatten_cons, hL, Option.getD_some]
        cases L with
        | nil => exact absurd rfl hne
        | cons a l => simp
    · intro t ht
      obtain ⟨l, hl, htl⟩ := List.mem_flatten.mp ht
      obtain ⟨tok, htok, rfl⟩ := List.mem_map.mp hl
      obtain ⟨L, hL, hcanon, _⟩ := tokExpandM_wf tok (h tok htok)
      rw [hL] at htl
      obtain ⟨n, rfl⟩ := hcanon t htl
      exact space_not_mem_natToStr n
  simp only [Option.map_some']
  rw [hround]
  rfl

theorem expand_wf (v : List String) (h : ∀ s ∈ v, ValueWF s) :
    expand_claim_value v =
      some (List.insertionSort sortIntLe
        (remove_repeated ((v.filter (fun x => x ≠ "")).map pieceF).flatten)) := by
  unfold expand_claim_value
  rw [omapM_eq_some_map _ pieceF _
    (fun s hs => piece_of_wf s (h s (List.mem_of_mem_filter hs)))]
  rfl

theorem flat_canon (v : List String) (h : ∀ s ∈ v, ValueWF s) :
    ∀ e ∈ ((v.filter (fun x => x ≠ "")).map pieceF).flatten, CanonNum e := by
  intro e he
  obtain ⟨l, hl, hel⟩ := List.mem_flatten.mp he
  obtain ⟨s, hs, rfl⟩ := List.mem_map.mp hl
  exact pieceF_canon s (h s (List.mem_of_mem_filter hs)) e hel

theorem rr_go_mem {α : Type} [DecidableEq α] :
    ∀ (l seen : List α) (x : α),
      x ∈ remove_repeated.go seen l ↔ x ∈ l ∧ x ∉ seen := by
  intro l
  induction l with
  | nil => intro seen x; simp [remove_repeated.go]
  | cons y ys ih =>
    intro seen x
    rw [remove_repeated.go]
    by_cases hy : y ∈ seen
    · rw [if_pos hy, ih]
      constructor
      · rintro ⟨h1, h2⟩
        exact ⟨List.mem_cons_of_mem y h1, h2⟩
      · rintro ⟨h1, h2⟩
        rcases List.mem_cons.mp h1 with rfl | h1
        · exact absurd hy h2
        · exact ⟨h1, h2⟩
    · rw [if_neg hy]
      constructor
      · intro hx
        rcases List.mem_cons.mp hx with rfl | hx
        · exact ⟨List.mem_cons_self _ _, hy⟩
        · obtain ⟨h1, h2⟩ := (ih (y :: seen) x).mp hx
          exact ⟨List.mem_cons_of_mem y h1,
            fun hs => h2 (List.mem_cons_of_mem y hs)⟩
      · rintro ⟨h1, h2⟩
        rcases List.mem_cons.mp h1 with rfl | h1
        · exact List.mem_cons_self _ _
        · by_cases hxy : x = y
          · exact hxy ▸ List.mem_cons_self _ _
          · exact List.mem_cons_of_mem y ((ih (y :: seen) x).mpr
              ⟨h1, fun hs => (List.mem_cons.mp hs).elim hxy h2⟩)

theorem rr_go_nodup {α : Type} [DecidableEq α] :
    ∀ (l seen : List α), (remove_repeated.go seen l).Nodup := by
  intro l
  induction l with
  | nil => intro seen; exact List.nodup_nil
  | cons y ys ih =>
    intro seen
    rw [remove_repeated.go]
    by_cases hy : y ∈ seen
    · rw [if_pos hy]; exact ih seen
    · rw [if_neg hy]
      refine List.nodup_cons.mpr ⟨?_, ih (y :: seen)⟩
      intro hmem
      exact ((rr_go_mem ys (y :: seen) y).mp hmem).2 (List.mem_cons_self _ _)

theorem remove_repeated_mem {α : Type} [DecidableEq α] (l : List α) (x : α) :
    x ∈ remove_repeated l ↔ x ∈ l := by
  unfold remove_repeated
  rw [rr_go_mem]
  simp

theorem remove_repeated_nodup {α : Type} [DecidableEq α] (l : List α) :
    (remove_repeated l).Nodup :=
  rr_go_nodup l []

theorem charToNat_inj (a b : Char) (h : a.toNat = b.toNat) : a = b := by
  cases a
  cases b
  simp only [Char.toNat] at h
  congr 1
  exact UInt32.toNat.inj h

theorem cmpNat_lt_iff (a b : Nat) : cmpNat a b = .lt ↔ a < b := by
  unfold cmpNat
  split_ifs <;> simp <;> omega

theorem cmpNat_eq_iff (a b : Nat) : cmpNat a b = .eq ↔ a = b := by
  unfold cmpNat
  split_ifs <;> simp <;> omega

theorem cmpNat_gt_iff (a b : Nat) : cmpNat a b = .gt ↔ b < a := by
  unfold cmpNat
  split_ifs <;> simp <;> omega

theorem cmpChars_eq_iff : ∀ (p q : List Char), cmpChars p q = .eq ↔ p = q := by
  intro p
  induction p with
  | nil => intro q; cases q <;> simp [cmpChars]
  | cons a as ih =>
    intro q
    cases q with
    | nil => simp [cmpChars]
    | cons b bs =>
      rw [cmpChars]
      split_ifs with h1 h2
      · simp only [List.cons.injEq]
        constructor
        · intro h; cases h
        · rintro ⟨rfl, rfl⟩; omega
      · simp only [List.cons.injEq]
        constructor
        · intro h; cases h
        · rintro ⟨rfl, rfl⟩; omega
      · have hab : a = b := charToNat_inj a b (by omega)
        subst hab
        simp [ih]

theorem cmpChars_swap : ∀ (p q : List Char), cmpChars p q = (cmpChars q p).swap := by
  intro p
  induction p with
  | nil => intro q; cases q <;> rfl
  | cons a as ih =>
    intro q
    cases q with
    | nil => rfl
    | cons b bs =>
      rw [cmpChars, cmpChars]
      rcases Nat.lt_trichotomy a.toNat b.toNat with h | h | h
      · rw [if_pos h, if_neg (by omega), if_pos h]
        rfl
      · rw [if_neg (by omega), if_neg (by omega), if_neg (by omega), if_neg (by omega)]
        exact ih bs
      · rw [if_neg (by omega), if_pos h, if_pos h]
        rfl

theorem cmpChars_lt_trans : ∀ (p q r : List Char),
    cmpChars p q = .lt → cmpChars q r = .lt → cmpChars p r = .lt := by
  intro p
  induction p with
  | nil =>
    intro q r h1 h2
    cases q with
    | nil => cases h1
    | cons b bs =>
      cases r with
      | nil => cases h2
      | cons c cs => rfl
  | cons a as ih =>
    intro q r h1 h2
    cases q with
    | nil => cases h1
    | cons b bs =>
      cases r with
      | nil => cases h2
      | cons c cs =>
        rw [cmpChars] at h1 h2 ⊢
        rcases Nat.lt_trichotomy a.toNat b.toNat with hab | hab | hab
        · rcases Nat.lt_trichotomy b.toNat c.toNat with hbc | hbc | hbc
          · rw [if_pos (by omega)]
          · rw [if_pos (by omega)]
          · rw [if_neg (by omega), if_pos hbc] at h2
            cases h2
        · rcases Nat.lt_trichotomy b.toNat c.toNat with hbc | hbc | hbc
          · rw [if_pos (by omega)]
          · rw [if_neg (by omega), if_neg (by omega)] at h1
            rw [if_neg (by omega), if_neg (by omega)] at h2
            rw [if_neg (by omega), if_neg (by omega)]
            exact ih bs cs h1 h2
          · rw [if_neg (by omega), if_pos hbc] at h2
            cases h2
        · rw [if_neg (by omega), if_pos hab] at h1
          cases h1

theorem cmpStr_eq_iff (a b : String) : cmpStr a b = .eq ↔ a = b := by
  unfold cmpStr
  rw [cmpChars_eq_iff]
  constructor
  · intro h
    exact congrArg String.mk h
  · intro h
    rw [h]

theorem cmpComp_swap (x y : Nat ⊕ String) : cmpComp x y = (cmpComp y x).swap := by
  cases x with
  | inl a =>
    cases y with
    | inl b =>
      show cmpNat a b = (cmpNat b a).swap
      unfold cmpNat
      split_ifs <;> first | rfl | omega
    | inr b => rfl
  | inr a =>
    cases y with
    | inl b => rfl
    | inr b => exact cmpChars_swap a.data b.data

theorem cmpComp_eq_iff (x y : Nat ⊕ String) : cmpComp x y = .eq ↔ x = y := by
  cases x with
  | inl a =>
    cases y with
    | inl b =>
      show cmpNat a b = .eq ↔ _
      rw [cmpNat_eq_iff]
      simp
    | inr b => simp [cmpComp]
  | inr a =>
    cases y with
    | inl b => simp [cmpComp]
    | inr b =>
      show cmpStr a b = .eq ↔ _
      rw [cmpStr_eq_iff]
      simp

theorem cmpComp_lt_trans (x y z : Nat ⊕ String)
    (h1 : cmpComp x y = .lt) (h2 : cmpComp y z = .lt) : cmpComp x z = .lt := by
  cases x with
  | inl a =>
    cases z with
    | inl c =>
      cases y with
      | inl b =>
        have ha : a < b := (cmpNat_lt_iff a b).mp h1
        have hb : b < c := (cmpNat_lt_iff b c).mp h2
        exact (cmpNat_lt_iff a c).mpr (Nat.lt_trans ha hb)
      | inr b => cases h2
    | inr c => rfl
  | inr a =>
    cases y with
    | inl b => cases h1
    | inr b =>
      cases z with
      | inl c => cases h2
      | inr c => exact cmpChars_lt_trans a.data b.data c.data h1 h2

theorem cmpKey_swap : ∀ (k1 k2 : List (Nat ⊕ String)), cmpKey k1 k2 = (cmpKey k2 k1).swap := by
  intro k1
  induction k1 with
  | nil => intro k2; cases k2 <;> rfl
  | cons a as ih =>
    intro k2
    cases k2 with
    | nil => rfl
    | cons b bs =>
      rw [cmpKey, cmpKey]
      cases h : cmpComp a b with
      | eq =>
        have hba : cmpComp b a = .eq := by rw [cmpComp_swap, h]; rfl
        rw [hba]
        exact ih bs
      | lt =>
        have hba : cmpComp b a = .gt := by rw [cmpComp_swap, h]; rfl
        rw [hba]
        rfl
      | gt =>
        have hba : cmpComp b a = .lt := by rw [cmpComp_swap, h]; rfl
        rw [hba]
        rfl

theorem cmpKey_eq_iff : ∀ (k1 k2 : List (Nat ⊕ String)), cmpKey k1 k2 = .eq ↔ k1 = k2 := by
  intro k1
  induction k1 with
  | nil => intro k2; cases k2 <;> simp [cmpKey]
  | cons a as ih =>
    intro k2
    cases k2 with
    | nil => simp [cmpKey]
    | cons b bs =>
      rw [cmpKey]
      cases h : cmpComp a b with
      | eq =>
        have hab : a = b := (cmpComp_eq_iff a b).mp h
        subst hab
        simp [ih]
      | lt =>
        simp only [List.cons.injEq]
        constructor
        · intro hc; cases hc
        · rintro ⟨rfl, rfl⟩
          rw [(cmpComp_eq_iff a a).mpr rfl] at h
          cases h
      | gt =>
        simp only [List.cons.injEq]
        constructor
        · intro hc; cases hc
        · rintro ⟨rfl, rfl⟩
          rw [(cmpComp_eq_iff a a).mpr rfl] at h
          cases h

theorem cmpKey_lt_trans : ∀ (k1 k2 k3 : List (Nat ⊕ String)),
    cmpKey k1 k2 = .lt → cmpKey k2 k3 = .lt → cmpKey k1 k3 = .lt := by
  intro k1
  induction k1 with
  | nil =>
    intro k2 k3 h1 h2
    cases k2 with
    | nil => cases h1
    | cons b bs =>
      cases k3 with
      | nil => cases h2
      | cons c cs => rfl
  | cons a as ih =>
    intro k2 k3 h1 h2
    cases k2 with
    | nil => cases h1
    | cons b bs =>
      cases k3 with
      | nil => cases h2
      | cons c cs =>
        rw [cmpKey] at h1 h2 ⊢
        cases hab : cmpComp a b with
        | eq =>
          have : a = b := (cmpComp_eq_iff a b).mp hab
          subst this
          rw [hab] at h1
          cases hac : cmpComp a c with
          | eq =>
            have : a = c := (cmpComp_eq_iff a c).mp hac
            subst this
            rw [hac] at h2
            exact ih bs cs h1 h2
          | lt => rfl
          | gt => rw [hac] at h2; cases h2
        | lt =>
          cases hbc : cmpComp b c with
          | eq =>
            have : b = c := (cmpComp_eq_iff b c).mp hbc
            subst this
            rw [hab]
          | lt => rw [cmpComp_lt_trans a b c hab hbc]
          | gt => rw [hbc] at h2; cases h2
        | gt => rw [hab] at h1; cases h1

theorem sortIntLe_iff (a b : String) :
    sortIntLe a b ↔ cmpKey (sort_int a) (sort_int b) ≠ .gt := by
  unfold sortIntLe sortIntLeB
  cases cmpKey (sort_int a) (sort_int b) <;> decide

theorem sortIntLe_total (a b : String) : sortIntLe a b ∨ sortIntLe b a := by
  rw [sortIntLe_iff, sortIntLe_iff]
  by_cases h : cmpKey (sort_int a) (sort_int b) = .gt
  · right
    rw [cmpKey_swap, h]
    decide
  · left
    exact h

theorem sortIntLe_trans (a b c : String)
    (h1 : sortIntLe a b) (h2 : sortIntLe b c) : sortIntLe a c := by
  rw [sortIntLe_iff] at h1 h2 ⊢
  cases hab : cmpKey (sort_int a) (sort_int b) with
  | gt => exact absurd hab h1
  | eq =>
    rw [(cmpKey_eq_iff _ _).mp hab]
    exact h2
  | lt =>
    cases hbc : cmpKey (sort_int b) (sort_int c) with
    | gt => exact absurd hbc h2
    | eq =>
      rw [← (cmpKey_eq_iff _ _).mp hbc]
      simp [hab]
    | lt =>
      rw [cmpKey_lt_trans _ _ _ hab hbc]
      simp

@[instance] theorem sortIntLe_isTotal : IsTotal String sortIntLe := ⟨sortIntLe_total⟩

@[instance] theorem sortIntLe_isTrans : IsTrans String sortIntLe := ⟨sortIntLe_trans⟩

theorem splitRunsGo_nil (f : Nat) : splitRunsGo f [] = [Sum.inr ""] := by
  cases f <;> rfl

theorem splitRuns_digits (l : List Char) (hne : l ≠ [])
    (hd : ∀ c ∈ l, c.isDigit = true) :
    splitRunsGo (l.length + 1) l = [Sum.inr "", Sum.inl (digitsVal l), Sum.inr ""] := by
  cases l with
  | nil => exact absurd rfl hne
  | cons c cs =>
    have hl : (c :: cs).length + 1 = cs.length + 1 + 1 := by simp
    rw [hl, splitRunsGo]
    have hc : c.isDigit = true := hd c (by simp)
    have ht : (c :: cs).takeWhile (fun x => !x.isDigit) = [] := by
      simp [List.takeWhile_cons, hc]
    have hdr : (c :: cs).dropWhile (fun x => !x.isDigit) = c :: cs := by
      simp [List.dropWhile_cons, hc]
    simp only [ht, hdr]
    have ht2 : (c :: cs).takeWhile Char.isDigit = c :: cs :=
      List.takeWhile_eq_self_iff.mpr hd
    have hd2 : (c :: cs).dropWhile Char.isDigit = [] :=
      List.dropWhile_eq_nil_iff.mpr hd
    rw [ht2, hd2, splitRunsGo_nil]

theorem sort_int_digits (s : String) (hne : s.data ≠ [])
    (hd : ∀ c ∈ s.data, c.isDigit = true) :
    sort_int s = [Sum.inr "", Sum.inl (digitsVal s.data), Sum.inr ""] :=
  splitRuns_digits s.data hne hd

theorem cmpKey_digit (x y : Nat) :
    cmpKey [Sum.inr "", Sum.inl x, Sum.inr ""] [Sum.inr "", Sum.inl y, Sum.inr ""] =
      cmpNat x y := by
  rw [cmpKey]
  rw [show cmpComp (Sum.inr "") (Sum.inr "") = Ordering.eq from rfl]
  show cmpKey [Sum.inl x, Sum.inr ""] [Sum.inl y, Sum.inr ""] = cmpNat x y
  rw [cmpKey]
  rw [show cmpComp (Sum.inl x : Nat ⊕ String) (Sum.inl y) = cmpNat x y from rfl]
  cases h : cmpNat x y
  · rfl
  · rfl
  · rfl

theorem sortIntLe_canon_iff (a b : String) (ha : CanonNum a) (hb : CanonNum b) :
    sortIntLe a b ↔ digitsVal a.data ≤ digitsVal b.data := by
  obtain ⟨m, hm⟩ := ha
  obtain ⟨k, hk⟩ := hb
  rw [sortIntLe_iff,
    sort_int_digits a (by rw [hm]; exact natToStr_ne_nil m)
      (by rw [hm]; exact natToStr_all_digit m),
    sort_int_digits b (by rw [hk]; exact natToStr_ne_nil k)
      (by rw [hk]; exact natToStr_all_digit k),
    cmpKey_digit, Ne, cmpNat_gt_iff]
  omega

/-- Sorting a duplicate-free list of canonical numerals yields a list
strictly increasing in numeric value. -/
theorem insertionSort_strict (L : List String) (hc : ∀ e ∈ L, CanonNum e)
    (hn : L.Nodup) : (List.insertionSort sortIntLe L).Pairwise valLt := by
  have hs : (List.insertionSort sortIntLe L).Pairwise sortIntLe :=
    List.sorted_insertionSort sortIntLe L
  have hperm := List.perm_insertionSort sortIntLe L
  have hcs : ∀ e ∈ List.insertionSort sortIntLe L, CanonNum e :=
    fun e he => hc e (hperm.mem_iff.mp he)
  have hns : (List.insertionSort sortIntLe L).Nodup := hperm.symm.nodup hn
  refine List.Pairwise.imp_of_mem ?_ (hs.and hns)
  intro a b hma hmb hr
  obtain ⟨hle, hne⟩ := hr
  have hva := (sortIntLe_canon_iff a b (hcs a hma) (hcs b hmb)).mp hle
  have hvne : digitsVal a.data ≠ digitsVal b.data :=
    fun hv => hne (canon_val_inj a b (hcs a hma) (hcs b hmb) hv)
  exact Nat.lt_of_le_of_ne hva hvne

/-- C5 (corrected): on well-formed claim values (tokens that are
canonical numerals or ascending numeral ranges) the expansion of
`_gcl_get_claims` (hyphen expansion, merge, deduplication, numeric
sort) is order-independent, deduplicating, and numerically sorted;
after the `new_value` normalization the code applies first,
`"3-5, 3, 7"` becomes `"3-5 3 7"`, which expands to exactly
`["3","4","5","7"]`, i.e. cited claims `[3,4,5,7]`; and the sort is
numeric, not lexical (`"9"` precedes `"10"`). Without the
well-formedness hypothesis order independence fails, see the
counterexample. -/
theorem claim_C5 (v₁ v₂ : List String) (hwf : ∀ s ∈ v₁, ValueWF s)
    (hperm : v₁.Perm v₂) :
    expand_claim_value v₁ = expand_claim_value v₂ ∧
    (∀ out, expand_claim_value v₁ = some out →
      out.Nodup ∧ out.Pairwise valLt) ∧
    claim_value_normalize "3-5, 3, 7" = "3-5 3 7" ∧
    expand_claim_value ["3-5 3 7"] = some ["3", "4", "5", "7"] ∧
    cited_claims ["3", "4", "5", "7"] = [3, 4, 5, 7] ∧
    expand_claim_value ["10-11 9"] = some ["9", "10", "11"] := by
  have hwf₂ : ∀ s ∈ v₂, ValueWF s := fun s hs => hwf s (hperm.mem_iff.mpr hs)
  have he₁ := expand_wf v₁ hwf
  have he₂ := expand_wf v₂ hwf₂
  have hflp : (((v₁.filter (fun x => x ≠ "")).map pieceF).flatten).Perm
      (((v₂.filter (fun x => x ≠ "")).map pieceF).flatten) :=
    ((hperm.filter _).map pieceF).flatten
  have hrr : (remove_repeated ((v₁.filter (fun x => x ≠ "")).map pieceF).flatten).Perm
      (remove_repeated ((v₂.filter (fun x => x ≠ "")).map pieceF).flatten) :=
    (List.perm_ext_iff_of_nodup (remove_repeated_nodup _) (remove_repeated_nodup _)).mpr
      (fun a => by rw [remove_repeated_mem, remove_repeated_mem]; exact hflp.mem_iff)
  have hstrict₁ : (List.insertionSort sortIntLe
      (remove_repeated ((v₁.filter (fun x => x ≠ "")).map pieceF).flatten)).Pairwise valLt :=
    insertionSort_strict _
      (fun e he => flat_canon v₁ hwf e ((remove_repeated_mem _ _).mp he))
      (remove_repeated_nodup _)
  have hstrict₂ : (List.insertionSort sortIntLe
      (remove_repeated ((v₂.filter (fun x => x ≠ "")).map pieceF).flatten)).Pairwise valLt :=
    insertionSort_strict _
      (fun e he => flat_canon v₂ hwf₂ e ((remove_repeated_mem _ _).mp he))
      (remove_repeated_nodup _)
  have hout : (List.insertionSort sortIntLe
      (remove_repeated ((v₁.filter (fun x => x ≠ "")).map pieceF).flatten)).Perm
      (List.insertionSort sortIntLe
        (remove_repeated ((v₂.filter (fun x => x ≠ "")).map pieceF).flatten)) :=
    ((List.perm_insertionSort _ _).trans hrr).trans (List.perm_insertionSort _ _).symm
  have hsorted₁ : List.Sorted valLtEq (List.insertionSort sortIntLe
      (remove_repeated ((v₁.filter (fun x => x ≠ "")).map pieceF).flatten)) :=
    hstrict₁.imp (fun h => Or.inl h)
  have hsorted₂ : List.Sorted valLtEq (List.insertionSort sortIntLe
      (remove_repeated ((v₂.filter (fun x => x ≠ "")).map pieceF).flatten)) :=
    hstrict₂.imp (fun h => Or.inl h)
  have heq := List.eq_of_perm_of_sorted hout hsorted₁ hsorted₂
  refine ⟨by rw [he₁, he₂, heq], ?_, by decide, by decide, by decide, by decide⟩
  intro out hsome
  rw [he₁] at hsome
  cases Option.some_inj.mp hsome
  exact ⟨(List.perm_insertionSort _ _).symm.nodup (remove_repeated_nodup _), hstrict₁⟩

theorem claim_C5_witness :
    expand_claim_value ["3-5 3 7", "7"] = expand_claim_value ["7", "3-5 3 7"] ∧
    (["3", "4", "5", "7"] : List String).Nodup ∧
    List.Pairwise valLt ["3", "4", "5", "7"] := by
  have hwf : ∀ s ∈ (["3-5 3 7", "7"] : List String), ValueWF s := by
    intro s hs
    rcases List.mem_cons.mp hs with rfl | hs
    · intro tok htok
      rw [show (pySplit [' '] ("3-5 3 7" : String).data).map strip_edge_hyphens =
          [['3', '-', '5'], ['3'], ['7']] from by decide] at htok
      simp only [List.mem_cons, List.not_mem_nil, or_false] at htok
      rcases htok with rfl | rfl | rfl
      · exact Or.inr ⟨3, 5, by omega, by decide⟩
      · exact Or.inl ⟨3, by decide⟩
      · exact Or.inl ⟨7, by decide⟩
    · rcases List.mem_cons.mp hs with rfl | hs
      · intro tok htok
        rw [show (pySplit [' '] ("7" : String).data).map strip_edge_hyphens =
            [['7']] from by decide] at htok
        simp only [List.mem_cons, List.not_mem_nil, or_false] at htok
        subst htok
        exact Or.inl ⟨7, by decide⟩
      · cases hs
  have h := claim_C5 ["3-5 3 7", "7"] ["7", "3-5 3 7"] hwf (List.Perm.swap _ _ _)
  exact ⟨h.1, h.2.1 ["3", "4", "5", "7"] (by decide)⟩

/-- C5, failing part of the original claim: without canonicity the
expansion is order-dependent. `"03"` and `"3"` are distinct strings
with the same `sort_int` key `["", 3, ""]`, so `remove_repeated` keeps
both and the stable sort preserves their input order. -/
theorem claim_C5_counterexample :
    (["03", "3"] : List String).Perm ["3", "03"] ∧
    expand_claim_value ["03", "3"] = some ["03", "3"] ∧
    expand_claim_value ["3", "03"] = some ["3", "03"] ∧
    expand_claim_value ["03", "3"] ≠ expand_claim_value ["3", "03"] := by
  refine ⟨List.Perm.swap _ _ _, by decide, by decide, by decide⟩

theorem matchRE_suffix : ∀ (re : RE) (s r : List Char), r ∈ matchRE re s → r <:+ s := by
  intro re
  induction re with
  | cls p =>
    intro s r h
    cases s with
    | nil => cases h
    | cons c cs =>
      rw [matchRE] at h
      split_ifs at h with hp
      · rw [List.mem_singleton] at h
        rw [h]
        exact List.suffix_cons c cs
      · cases h
  | seq a b iha ihb =>
    intro s r h
    rw [matchRE] at h
    obtain ⟨m, hm, hr⟩ := List.mem_flatMap.mp h
    exact (ihb m r hr).trans (iha s m hm)
  | alt a b iha ihb =>
    intro s r h
    rw [matchRE] at h
    rcases List.mem_append.mp h with h | h
    · exact iha s r h
    · exact ihb s r h
  | opt a iha =>
    intro s r h
    rw [matchRE] at h
    rcases List.mem_append.mp h with h | h
    · exact iha s r h
    · rw [List.mem_singleton] at h
      exact h ▸ List.suffix_refl s
  | many1 p =>
    intro s r h
    simp only [matchRE, List.mem_map, List.mem_range] at h
    obtain ⟨i, _, rfl⟩ := h
    exact List.drop_suffix _ _

theorem suffix_append_right (x y r : List Char) : x ++ r <:+ y ++ r ↔ x <:+ y := by
  constructor
  · rintro ⟨t, ht⟩
    rw [← List.append_assoc] at ht
    exact ⟨t, List.append_cancel_right ht⟩
  · rintro ⟨t, ht⟩
    exact ⟨t, by rw [← List.append_assoc, ht]⟩

theorem not_self_mem_matchRE : ∀ (re : RE), matchesEmptyRE re = false →
    ∀ (s : List Char), s ∉ matchRE re s := by
  intro re
  induction re with
  | cls p =>
    intro _ s h
    cases s with
    | nil => cases h
    | cons c cs =>
      rw [matchRE] at h
      split_ifs at h with hp
      · rw [List.mem_singleton] at h
        have hlen := congrArg List.length h
        simp at hlen
      · cases h
  | seq a b iha ihb =>
    intro hme s h
    rw [matchRE] at h
    obtain ⟨m, hm, hr⟩ := List.mem_flatMap.mp h
    have hms : m = s := by
      have h1 := matchRE_suffix a s m hm
      have h2 := matchRE_suffix b m s hr
      exact h1.eq_of_length (Nat.le_antisymm h1.length_le h2.length_le)
    subst hms
    rw [matchesEmptyRE, Bool.and_eq_false_iff] at hme
    rcases hme with hme | hme
    · exact iha hme m hm
    · exact ihb hme m hr
  | alt a b iha ihb =>
    intro hme s h
    rw [matchesEmptyRE, Bool.or_eq_false_iff] at hme
    rw [matchRE] at h
    rcases List.mem_append.mp h with h | h
    · exact iha hme.1 s h
    · exact ihb hme.2 s h
  | opt a iha =>
    intro hme _ _
    cases hme
  | many1 p =>
    intro _ s h
    simp only [matchRE, List.mem_map, List.mem_range] at h
    obtain ⟨i, hi, hdrop⟩ := h
    have hlen := congrArg List.length hdrop
    rw [List.length_drop] at hlen
    have hple : (s.takeWhile p).length ≤ s.length := by
      conv_rhs => rw [← List.takeWhile_append_dropWhile p s]
      rw [List.length_append]
      omega
    omega

theorem noMatchAll_iff (re : RE) : ∀ (s : List Char),
    noMatchAll re s = true ↔ ∀ t, t <:+ s → matchRE re t = [] := by
  intro s
  induction s with
  | nil =>
    rw [noMatchAll]
    constructor
    · intro h t ht
      rw [List.suffix_nil.mp ht]
      exact List.isEmpty_iff.mp h
    · intro h
      exact List.isEmpty_iff.mpr (h [] (List.suffix_refl []))
  | cons c cs ih =>
    rw [noMatchAll, Bool.and_eq_true]
    constructor
    · rintro ⟨h1, h2⟩ t ht
      rcases List.suffix_cons_iff.mp ht with rfl | ht
      · exact List.isEmpty_iff.mp h1
      · exact (ih.mp h2) t ht
    · intro h
      exact ⟨List.isEmpty_iff.mpr (h _ (List.suffix_refl _)),
        ih.mpr (fun t ht => h t (ht.trans (List.suffix_cons c cs)))⟩

theorem subAll_of_noMatch (re : RE) (repl : List Char) :
    ∀ (s : List Char), noMatchAll re s = true → subAll re repl s = s := by
  intro s
  induction s with
  | nil => intro _; rfl
  | cons c cs ih =>
    intro h
    rw [noMatchAll, Bool.and_eq_true] at h
    rw [subAll_cons]
    have hempty : matchRE re (c :: cs) = [] := List.isEmpty_iff.mp h.1
    rw [hempty]
    simp only [List.head?_nil]
    rw [ih h.2]

theorem takeWhile_append_min (p : Char → Bool) :
    ∀ (pre r : List Char),
      (pre.takeWhile p).length = min ((pre ++ r).takeWhile p).length pre.length := by
  intro pre r
  induction pre with
  | nil => simp
  | cons c pre' ih =>
    by_cases hp : p c
    · rw [List.cons_append, List.takeWhile_cons_of_pos hp, List.takeWhile_cons_of_pos hp]
      simp only [List.length_cons]
      omega
    · rw [List.cons_append, List.takeWhile_cons_of_neg hp, List.takeWhile_cons_of_neg hp]
      simp

/-- Appending a common suffix does not affect matching: the engine
matches `r'` after consuming a prefix of `pre` iff it does so in
`pre ++ r`. -/
theorem matchRE_append_suffix : ∀ (re : RE) (pre r' r : List Char),
    (r' ++ r) ∈ matchRE re (pre ++ r) ↔ r' ∈ matchRE re pre := by
  intro re
  induction re with
  | cls p =>
    intro pre r' r
    cases pre with
    | nil =>
      simp only [List.nil_append]
      constructor
      · intro h
        cases r with
        | nil => exact absurd h (List.not_mem_nil _)
        | cons c cs =>
          rw [matchRE] at h
          split_ifs at h with hp
          · rw [List.mem_singleton] at h
            have hlen := congrArg List.length h
            rw [List.length_append, List.length_cons] at hlen
            omega
          · cases h
      · intro h
        exact absurd h (List.not_mem_nil _)
    | cons c pre' =>
      rw [List.cons_append, matchRE, matchRE]
      split_ifs with hp
      · rw [List.mem_singleton, List.mem_singleton]
        exact List.append_left_inj r
      · simp
  | seq a b iha ihb =>
    intro pre r' r
    rw [matchRE, matchRE]
    constructor
    · intro h
      obtain ⟨m, hm, hr⟩ := List.mem_flatMap.mp h
      obtain ⟨w, rfl⟩ := matchRE_suffix b m (r' ++ r) hr
      rw [← List.append_assoc] at hm hr
      exact List.mem_flatMap.mpr ⟨w ++ r', (iha pre (w ++ r') r).mp hm,
        (ihb (w ++ r') r' r).mp hr⟩
    · intro h
      obtain ⟨m', hm', hr'⟩ := List.mem_flatMap.mp h
      obtain ⟨w, rfl⟩ := matchRE_suffix b m' r' hr'
      exact List.mem_flatMap.mpr ⟨(w ++ r') ++ r, (iha pre (w ++ r') r).mpr hm',
        (ihb (w ++ r') r' r).mpr hr'⟩
  | alt a b iha ihb =>
    intro pre r' r
    rw [matchRE, matchRE, List.mem_append, List.mem_append, iha pre r' r, ihb pre r' r]
  | opt a iha =>
    intro pre r' r
    rw [matchRE, matchRE, List.mem_append, List.mem_append, iha pre r' r,
      List.mem_singleton, List.mem_singleton, List.append_left_inj]
  | many1 p =>
    intro pre r' r
    simp only [matchRE, List.mem_map, List.mem_range]
    have hmin := takeWhile_append_min p pre r
    have hrle : ((pre ++ r).takeWhile p).length ≤ pre.length + r.length := by
      have h2 := congrArg List.length (List.takeWhile_append_dropWhile p (pre ++ r))
      rw [List.length_append, List.length_append] at h2
      omega
    constructor
    · rintro ⟨i, hi, hdrop⟩
      have hlen := congrArg List.length hdrop
      rw [List.length_drop, List.length_append, List.length_append] at hlen
      have hkpre : ((pre ++ r).takeWhile p).length - i ≤ pre.length := by omega
      rw [List.drop_append_of_le_length hkpre] at hdrop
      have hdrop' : pre.drop (((pre ++ r).takeWhile p).length - i) = r' :=
        (List.append_left_inj r).mp hdrop
      refine ⟨(pre.takeWhile p).length - (((pre ++ r).takeWhile p).length - i),
        by omega, ?_⟩
      have heq : (pre.takeWhile p).length -
          ((pre.takeWhile p).length - (((pre ++ r).takeWhile p).length - i)) =
          ((pre ++ r).takeWhile p).length - i := by omega
      rw [heq, hdrop']
    · rintro ⟨j, hj, hdrop⟩
      have hrpre : (pre.takeWhile p).length ≤ pre.length := by omega
      have hkpre : (pre.takeWhile p).length - j ≤ pre.length := by omega
      refine ⟨((pre ++ r).takeWhile p).length - ((pre.takeWhile p).length - j),
        by omega, ?_⟩
      have heq : ((pre ++ r).takeWhile p).length -
          (((pre ++ r).takeWhile p).length - ((pre.takeWhile p).length - j)) =
          (pre.takeWhile p).length - j := by omega
      rw [heq, List.drop_append_of_le_length hkpre, hdrop]

theorem take_le_takeWhile (p : Char → Bool) (s : List Char) (k : Nat)
    (hk : k ≤ (s.takeWhile p).length) : s.take k = (s.takeWhile p).take k := by
  conv_lhs => rw [← List.takeWhile_append_dropWhile p s]
  rw [List.take_append_of_le_length hk]

/-- The characters a match consumes all satisfy the pattern's character
classes. -/
theorem matchRE_allowed : ∀ (re : RE) (s r : List Char), r ∈ matchRE re s →
    ∃ u, s = u ++ r ∧ ∀ c ∈ u, allowed re c = true := by
  intro re
  induction re with
  | cls p =>
    intro s r h
    cases s with
    | nil => cases h
    | cons c cs =>
      rw [matchRE] at h
      split_ifs at h with hp
      · rw [List.mem_singleton] at h
        refine ⟨[c], by rw [h]; rfl, ?_⟩
        intro x hx
        rw [List.mem_singleton] at hx
        subst hx
        exact hp
      · cases h
  | seq a b iha ihb =>
    intro s r h
    rw [matchRE] at h
    obtain ⟨m, hm, hr⟩ := List.mem_flatMap.mp h
    obtain ⟨u1, rfl, h1⟩ := iha s m hm
    obtain ⟨u2, rfl, h2⟩ := ihb m r hr
    refine ⟨u1 ++ u2, by rw [List.append_assoc], ?_⟩
    intro c hc
    show (allowed a c || allowed b c) = true
    rcases List.mem_append.mp hc with hc | hc
    · rw [h1 c hc]
      simp
    · rw [h2 c hc]
      simp
  | alt a b iha ihb =>
    intro s r h
    rw [matchRE] at h
    rcases List.mem_append.mp h with h | h
    · obtain ⟨u, rfl, hu⟩ := iha s r h
      refine ⟨u, rfl, ?_⟩
      intro c hc
      show (allowed a c || allowed b c) = true
      rw [hu c hc]
      simp
    · obtain ⟨u, rfl, hu⟩ := ihb s r h
      refine ⟨u, rfl, ?_⟩
      intro c hc
      show (allowed a c || allowed b c) = true
      rw [hu c hc]
      simp
  | opt a iha =>
    intro s r h
    rw [matchRE] at h
    rcases List.mem_append.mp h with h | h
    · exact iha s r h
    · rw [List.mem_singleton] at h
      refine ⟨[], by rw [h]; rfl, ?_⟩
      intro c hc
      cases hc
  | many1 p =>
    intro s r h
    simp only [matchRE, List.mem_map, List.mem_range] at h
    obtain ⟨i, hi, rfl⟩ := h
    refine ⟨s.take ((s.takeWhile p).length - i), (List.take_append_drop _ s).symm, ?_⟩
    intro c hc
    rw [take_le_takeWhile p s _ (by omega)] at hc
    exact List.mem_takeWhile_imp (List.take_subset _ _ hc)

theorem suffix_append_cons_split (t x y : List Char) (c : Char)
    (h : t <:+ x ++ c :: y) :
    t <:+ c :: y ∨ ∃ ts, ts <:+ x ∧ ts ≠ [] ∧ t = ts ++ c :: y := by
  obtain ⟨w, hw⟩ := h
  rcases List.append_eq_append_iff.mp hw with ⟨a', ha1, ha2⟩ | ⟨c', hc1, hc2⟩
  · cases a' with
    | nil =>
      left
      rw [ha2]
      exact List.suffix_refl _
    | cons d a'' =>
      right
      exact ⟨d :: a'', ⟨w, ha1.symm⟩, by simp, ha2⟩
  · left
    exact ⟨c', hc2.symm⟩

/-- If a pattern cannot consume the separator, cannot match the empty
string, and has no match inside `x` or `y`, it has no match in
`x ++ sep :: y` either. -/
theorem noMatch_append_sep (re : RE) (hallow : allowed re ',' = false)
    (hmE : matchesEmptyRE re = false) (x y : List Char)
    (hx : noMatchAll re x = true) (hy : noMatchAll re y = true) :
    noMatchAll re (x ++ ',' :: y) = true := by
  rw [noMatchAll_iff]
  intro t ht
  by_contra hne
  obtain ⟨r, hr⟩ := List.exists_mem_of_ne_nil _ hne
  rcases suffix_append_cons_split t x y ',' ht with hty | ⟨ts, hts, htsne, rfl⟩
  · rcases List.suffix_cons_iff.mp hty with rfl | hty
    · obtain ⟨u, hu, hual⟩ := matchRE_allowed re _ r hr
      cases u with
      | nil =>
        rw [List.nil_append] at hu
        rw [← hu] at hr
        exact not_self_mem_matchRE re hmE _ hr
      | cons u0 u' =>
        rw [List.cons_append] at hu
        injection hu with h1 h2
        have hcontra := hual u0 (List.mem_cons_self _ _)
        rw [← h1, hallow] at hcontra
        cases hcontra
    · rw [(noMatchAll_iff re y).mp hy t hty] at hr
      cases hr
  · obtain ⟨u, hu, hual⟩ := matchRE_allowed re _ r hr
    rcases List.append_eq_append_iff.mp hu.symm with ⟨a', ha1, ha2⟩ | ⟨c', hc1, hc2⟩
    · subst ha1
      subst ha2
      have hw := (matchRE_append_suffix re (u ++ a') a' (',' :: y)).mp hr
      have hmem : matchRE re (u ++ a') ≠ [] := fun hnil => by
        rw [hnil] at hw
        cases hw
      exact hmem ((noMatchAll_iff re x).mp hx _ hts)
    · subst hc1
      cases c' with
      | nil =>
        rw [List.nil_append] at hc2
        subst hc2
        have hw := (matchRE_append_suffix re ts [] (',' :: y)).mp (by
          rw [List.nil_append]
          exact hr)
        have hmem : matchRE re ts ≠ [] := fun hnil => by
          rw [hnil] at hw
          cases hw
        exact hmem ((noMatchAll_iff re x).mp hx _ hts)
      | cons d c'' =>
        have hd : d = ',' := by
          rw [List.cons_append] at hc2
          injection hc2 with h1 h2
          exact h1.symm
        have hdu : d ∈ ts ++ d :: c'' := List.mem_append.mpr (Or.inr (List.mem_cons_self _ _))
        have hcontra := hual d hdu
        rw [hd, hallow] at hcontra
        cases hcontra

theorem matchRE_nil_of_not_empty (re : RE) (hmE : matchesEmptyRE re = false) :
    matchRE re [] = [] := by
  cases h : matchRE re [] with
  | nil => rfl
  | cons r rs =>
    have hr : r ∈ matchRE re [] := h ▸ List.mem_cons_self _ _
    have := List.suffix_nil.mp (matchRE_suffix re [] r hr)
    subst this
    exact absurd hr (not_self_mem_matchRE re hmE [])

theorem noMatchAll_nil (re : RE) (hmE : matchesEmptyRE re = false) :
    noMatchAll re [] = true := by
  rw [noMatchAll, matchRE_nil_of_not_empty re hmE]
  rfl

/-- A match of the core of the third docket pattern starts with a
space. -/
theorem matchRE_docketCcore_head : ∀ (s r : List Char),
    r ∈ matchRE docketCcore s → ∃ cs, s = ' ' :: cs := by
  intro s r h
  rw [docketCcore, matchRE] at h
  obtain ⟨m, hm, _⟩ := List.mem_flatMap.mp h
  simp only [matchRE, List.mem_map, List.mem_range] at hm
  obtain ⟨i, hi, _⟩ := hm
  cases s with
  | nil => rw [List.takeWhile_nil] at hi; simp at hi
  | cons s0 ss =>
    by_cases hp : (s0 == ' ') = true
    · exact ⟨ss, by rw [eq_of_beq hp]⟩
    · rw [List.takeWhile_cons_of_neg (by simp [hp])] at hi
      simp at hi

/-- Any match of the third docket pattern is a match of its core,
possibly after one leading comma. -/
theorem matchRE_docketC_cases (s r : List Char) (h : r ∈ matchRE docketC s) :
    (∃ cs, s = ',' :: cs ∧ r ∈ matchRE docketCcore cs) ∨ r ∈ matchRE docketCcore s := by
  rw [docketC, matchRE] at h
  obtain ⟨m, hm, hr⟩ := List.mem_flatMap.mp h
  rw [matchRE] at hm
  rcases List.mem_append.mp hm with hm | hm
  · cases s with
    | nil => cases hm
    | cons c cs =>
      rw [lit, matchRE] at hm
      split_ifs at hm with hc
      · rw [List.mem_singleton] at hm
        subst hm
        exact Or.inl ⟨m, by rw [eq_of_beq hc], hr⟩
      · cases hm
  · rw [List.mem_singleton] at hm
    subst hm
    exact Or.inr hr

/-- The separator-crossing analysis for the third docket pattern, whose
optional leading comma needs special treatment. -/
theorem noMatchC_append (x y : List Char) (hx : noMatchAll docketC x = true)
    (hy : noMatchAll docketC y = true) (hcx : ',' ∉ x)
    (hyh : y.head? ≠ some ' ') : noMatchAll docketC (x ++ ',' :: y) = true := by
  rw [noMatchAll_iff]
  intro t ht
  by_contra hne
  obtain ⟨r, hr⟩ := List.exists_mem_of_ne_nil _ hne
  rcases suffix_append_cons_split t x y ',' ht with hty | ⟨ts, hts, htsne, rfl⟩
  · rcases List.suffix_cons_iff.mp hty with rfl | hty
    · rcases matchRE_docketC_cases _ r hr with ⟨cs, hcs, hm⟩ | hm
      · injection hcs with h1 h2
        subst h2
        obtain ⟨cs', hcs'⟩ := matchRE_docketCcore_head _ r hm
        rw [hcs'] at hyh
        simp at hyh
      · obtain ⟨cs', hcs'⟩ := matchRE_docketCcore_head _ r hm
        injection hcs' with h1 _
        exact absurd h1 (by decide)
    · rw [(noMatchAll_iff docketC y).mp hy t hty] at hr
      cases hr
  · rcases matchRE_docketC_cases _ r hr with ⟨cs, hcs, hm⟩ | hm
    · cases ts with
      | nil => exact htsne rfl
      | cons t0 ts' =>
        rw [List.cons_append] at hcs
        injection hcs with h1 _
        exact hcx (h1 ▸ hts.subset (List.mem_cons_self _ _))
    · obtain ⟨u, hu, hual⟩ := matchRE_allowed docketCcore _ r hm
      rcases List.append_eq_append_iff.mp hu.symm with ⟨a', ha1, ha2⟩ | ⟨c', hc1, hc2⟩
      · subst ha1
        subst ha2
        have hw := (matchRE_append_suffix docketCcore (u ++ a') a' (',' :: y)).mp hm
        have hmem : matchRE docketC (u ++ a') ≠ [] := by
          intro hnil
          have hx2 : a' ∈ matchRE docketC (u ++ a') := by
            rw [docketC, matchRE]
            refine List.mem_flatMap.mpr ⟨u ++ a', ?_, hw⟩
            rw [matchRE]
            exact List.mem_append.mpr (Or.inr (List.mem_singleton.mpr rfl))
          rw [hnil] at hx2
          cases hx2
        exact hmem ((noMatchAll_iff docketC x).mp hx _ hts)
      · subst hc1
        cases c' with
        | nil =>
          rw [List.nil_append] at hc2
          subst hc2
          have hw := (matchRE_append_suffix docketCcore ts [] (',' :: y)).mp (by
            rw [List.nil_append]
            exact hm)
          have hmem : matchRE docketC ts ≠ [] := by
            intro hnil
            have hx2 : ([] : List Char) ∈ matchRE docketC ts := by
              rw [docketC, matchRE]
              refine List.mem_flatMap.mpr ⟨ts, ?_, hw⟩
              rw [matchRE]
              exact List.mem_append.mpr (Or.inr (List.mem_singleton.mpr rfl))
            rw [hnil] at hx2
            cases hx2
          exact hmem ((noMatchAll_iff docketC x).mp hx _ hts)
        | cons d c'' =>
          have hd : d = ',' := by
            rw [List.cons_append] at hc2
            injection hc2 with h1 h2
            exact h1.symm
          have hdu : d ∈ ts ++ d :: c'' :=
            List.mem_append.mpr (Or.inr (List.mem_cons_self _ _))
          have hcontra := hual d hdu
          rw [hd] at hcontra
          rw [show allowed docketCcore ',' = false from by decide] at hcontra
          cases hcontra

theorem noMatchAll_joinSep (re : RE) (hallow : allowed re ',' = false)
    (hmE : matchesEmptyRE re = false) :
    ∀ (frags : List (List Char)), (∀ f ∈ frags, noMatchAll re f = true) →
      noMatchAll re (joinSep ',' frags) = true := by
  intro frags
  induction frags with
  | nil => intro _; exact noMatchAll_nil re hmE
  | cons f rest ih =>
    intro hf
    cases rest with
    | nil => exact hf f (List.mem_cons_self _ _)
    | cons g rest' =>
      show noMatchAll re (f ++ ',' :: joinSep ',' (g :: rest')) = true
      exact noMatch_append_sep re hallow hmE f _ (hf f (List.mem_cons_self _ _))
        (ih (fun f' hf' => hf f' (List.mem_cons_of_mem _ hf')))

theorem noMatchAllC_joinSep :
    ∀ (frags : List (List Char)),
      (∀ f ∈ frags, noMatchAll docketC f = true) →
      (∀ f ∈ frags, ',' ∉ f) →
      (∀ f ∈ frags, f.head? ≠ some ' ') →
      noMatchAll docketC (joinSep ',' frags) = true := by
  intro frags
  induction frags with
  | nil =>
    intro _ _ _
    exact noMatchAll_nil docketC (by decide)
  | cons f rest ih =>
    intro hf hcomma hhead
    cases rest with
    | nil => exact hf f (List.mem_cons_self _ _)
    | cons g rest' =>
      show noMatchAll docketC (f ++ ',' :: joinSep ',' (g :: rest')) = true
      refine noMatchC_append f _ (hf f (List.mem_cons_self _ _))
        (ih (fun f' hf' => hf f' (List.mem_cons_of_mem _ hf'))
          (fun f' hf' => hcomma f' (List.mem_cons_of_mem _ hf'))
          (fun f' hf' => hhead f' (List.mem_cons_of_mem _ hf')))
        (hcomma f (List.mem_cons_self _ _)) ?_
      cases rest' with
      | nil =>
        show g.head? ≠ some ' '
        exact hhead g (List.mem_cons_of_mem _ (List.mem_cons_self _ _))
      | cons g2 rest'' =>
        show (g ++ ',' :: joinSep ',' (g2 :: rest'')).head? ≠ some ' '
        cases g with
        | nil => simp
        | cons g0 gs =>
          have := hhead (g0 :: gs) (List.mem_cons_of_mem _ (List.mem_cons_self _ _))
          simpa using this

theorem joinSep_roundtrip (c : Char) : ∀ (L : List (List Char)), L ≠ [] →
    (∀ t ∈ L, c ∉ t) → pySplit [c] (joinSep c L) = L := by
  intro L
  induction L with
  | nil => intro h _; exact absurd rfl h
  | cons x xs ih =>
    intro _ hfree
    cases xs with
    | nil =>
      show pySplit [c] x = [x]
      exact pySplit_no_sep_head [c] c rfl x (hfree x (List.mem_cons_self _ _))
    | cons y ys =>
      show pySplit [c] (x ++ c :: joinSep c (y :: ys)) = x :: y :: ys
      rw [pySplit_single_split c (joinSep c (y :: ys)) x (hfree x (List.mem_cons_self _ _))]
      rw [ih (by simp) (fun t ht => hfree t (List.mem_cons_of_mem x ht))]

/-- A string fixed by `extra_char_patterns` does not begin with a comma,
dot or space. -/
theorem stripExtraChars_head (f : List Char) (h : stripExtraChars f = f)
    (c : Char) (hc : f.head? = some c) :
    (c == ',' || c == '.' || c == ' ') = false := by
  by_contra hcon
  rw [Bool.not_eq_false] at hcon
  cases f with
  | nil => cases hc
  | cons c0 rest =>
    rw [List.head?_cons, Option.some_inj] at hc
    subst hc
    have hdrop : (c0 :: rest).dropWhile (fun x => x == ',' || x == '.' || x == ' ') =
        rest.dropWhile (fun x => x == ',' || x == '.' || x == ' ') :=
      List.dropWhile_cons_of_pos hcon
    have hlen : (stripExtraChars (c0 :: rest)).length ≤ rest.length := by
      simp only [stripExtraChars]
      rw [hdrop, List.length_reverse]
      calc ((rest.dropWhile _).reverse.dropWhile _).length
          ≤ (rest.dropWhile (fun x => x == ',' || x == '.' || x == ' ')).reverse.length :=
            (List.dropWhile_suffix _).length_le
        _ = (rest.dropWhile (fun x => x == ',' || x == '.' || x == ' ')).length :=
            List.length_reverse _
        _ ≤ rest.length := (List.dropWhile_suffix _).length_le
    rw [h] at hlen
    simp at hlen

theorem repairStep_id (l : List String) (h : ∀ f ∈ l, startsHyphen f = false)
    (i : Nat) : repairStep l i = l := by
  unfold repairStep
  by_cases hd : startsHyphen (l.getD i "")
  · exfalso
    by_cases hi : i < l.length
    · have hmem : l.getD i "" ∈ l := by
        rw [List.getD_eq_getElem?_getD, List.getElem?_eq_getElem hi]
        exact List.getElem_mem _
      rw [h _ hmem] at hd
      cases hd
    · have hempty : l.getD i "" = "" := by
        rw [List.getD_eq_getElem?_getD, List.getElem?_eq_none (by omega)]
        rfl
      rw [hempty] at hd
      exact absurd hd (by decide)
  · rw [if_neg hd]

theorem repairHyphens_id (l : List String) (h : ∀ f ∈ l, startsHyphen f = false) :
    repairHyphens l = l := by
  have hfold : ∀ ks : List Nat, List.foldl repairStep l ks = l := by
    intro ks
    induction ks with
    | nil => rfl
    | cons k ks ih => rw [List.foldl_cons, repairStep_id l h k, ih]
  exact hfold _

/-- C7 (corrected): the docket normalization of `_gcl_casenumber` is
idempotent on fragment lists that are free of the three docket
patterns, comma-free, fixed under the punctuation strip, and do not
begin with a hyphen: re-running the pipeline on the comma-joined
fragments returns exactly the same fragments.  (Typical outputs satisfy
these conditions, as in the concrete `Nos.` example; the pipeline's own
outputs can violate them - see the counterexample - so idempotence does
not hold for every docket text as originally claimed.) -/
theorem claim_C7 (frags : List String)
    (hne : frags ≠ [])
    (hA : ∀ f ∈ frags, noMatchAll docketA f.data = true)
    (hB : ∀ f ∈ frags, noMatchAll docketB f.data = true)
    (hC : ∀ f ∈ frags, noMatchAll docketC f.data = true)
    (hcomma : ∀ f ∈ frags, ',' ∉ f.data)
    (hstrip : ∀ f ∈ frags, stripExtraChars f.data = f.data)
    (hhyph : ∀ f ∈ frags, startsHyphen f = false) :
    gcl_casenumber_fragments (String.mk (joinSep ',' (frags.map String.data))) = frags ∧
    gcl_casenumber_fragments "Nos. 2021-1234, 2021-1235 and -1236" =
      ["2021-1234", "2021-1235", "2021-1236"] := by
  refine ⟨?_, by decide⟩
  have hhead : ∀ g ∈ frags.map String.data, g.head? ≠ some ' ' := by
    intro g hg
    obtain ⟨s, hs, rfl⟩ := List.mem_map.mp hg
    intro hh
    have := stripExtraChars_head s.data (hstrip s hs) ' ' hh
    simp at this
  have hA' : noMatchAll docketA (joinSep ',' (frags.map String.data)) = true := by
    refine noMatchAll_joinSep docketA (by decide) (by decide) _ ?_
    intro g hg
    obtain ⟨s, hs, rfl⟩ := List.mem_map.mp hg
    exact hA s hs
  have hB' : noMatchAll docketB (joinSep ',' (frags.map String.data)) = true := by
    refine noMatchAll_joinSep docketB (by decide) (by decide) _ ?_
    intro g hg
    obtain ⟨s, hs, rfl⟩ := List.mem_map.mp hg
    exact hB s hs
  have hC' : noMatchAll docketC (joinSep ',' (frags.map String.data)) = true := by
    refine noMatchAllC_joinSep _ ?_ ?_ hhead
    · intro g hg
      obtain ⟨s, hs, rfl⟩ := List.mem_map.mp hg
      exact hC s hs
    · intro g hg
      obtain ⟨s, hs, rfl⟩ := List.mem_map.mp hg
      exact hcomma s hs
  unfold gcl_casenumber_fragments docket_sub
  rw [show (String.mk (joinSep ',' (frags.map String.data))).data =
      joinSep ',' (frags.map String.data) from rfl]
  rw [subAll_of_noMatch docketA [] _ hA', subAll_of_noMatch docketB [] _ hB',
    subAll_of_noMatch docketC [','] _ hC']
  rw [joinSep_roundtrip ',' (frags.map String.data)
    (fun h0 => hne (List.map_eq_nil_iff.mp h0))
    (fun t ht => by
      obtain ⟨s, hs, rfl⟩ := List.mem_map.mp ht
      exact hcomma s hs)]
  rw [List.map_map]
  have hmapid : frags.map ((fun f => String.mk (stripExtraChars f)) ∘ String.data) = frags := by
    have hcongr : ∀ s ∈ frags, ((fun f => String.mk (stripExtraChars f)) ∘ String.data) s = s := by
      intro s hs
      show String.mk (stripExtraChars s.data) = s
      rw [hstrip s hs]
    rw [List.map_congr_left hcongr]
    simp
  rw [hmapid]
  exact repairHyphens_id frags hhyph

theorem claim_C7_witness :
    gcl_casenumber_fragments
        (String.mk (joinSep ',' ((["2021-1234", "112"] : List String).map String.data))) =
      ["2021-1234", "112"] ∧
    gcl_casenumber_fragments "Nos. 2021-1234, 2021-1235 and -1236" =
      ["2021-1234", "2021-1235", "2021-1236"] := by
  refine claim_C7 ["2021-1234", "112"] (by simp) ?_ ?_ ?_ ?_ ?_ ?_
  all_goals
    intro f hf
    rcases List.mem_cons.mp hf with rfl | hf
    · decide
    · rcases List.mem_cons.mp hf with rfl | hf
      · decide
      · cases hf

/-- C7, failing part of the original claim: the pipeline's own outputs
need not be fixed points.  A repaired-from-empty-base fragment keeps
its leading hyphen and is repaired differently on the second run, and a
parenthesis removal can expose a fresh `No.` prefix that only the
second run strips. -/
theorem claim_C7_counterexample :
    gcl_casenumber_fragments "-a,3-x,-b" = ["-a", "3-x", "3-b"] ∧
    String.mk (joinSep ',' ((["-a", "3-x", "3-b"] : List String).map String.data)) =
      "-a,3-x,3-b" ∧
    gcl_casenumber_fragments "-a,3-x,3-b" = ["3-a", "3-x", "3-b"] ∧
    (["3-a", "3-x", "3-b"] : List String) ≠ ["-a", "3-x", "3-b"] ∧
    gcl_casenumber_fragments "N(x)o. 123" = ["No. 123"] ∧
    gcl_casenumber_fragments "No. 123" = ["123"] ∧
    (["123"] : List String) ≠ ["No. 123"] := by
  refine ⟨by decide, by decide, by decide, by decide, by decide, by decide, by decide⟩

end Gcl
